import Mathlib

/-!
Verification of the core algorithm of the kroftig backend
(`kroftig/git_utils.py`): the tree flattener `_read_tree_inner` /
`_read_tree` and the latest-changing-commit resolver
`get_latest_changing_commits_for_tree`.

Python dicts are modelled as association lists with in-place update
semantics (`aset`); `set.pop` nondeterminism is modelled by an explicit
scheduler argument; recursion through the object store is fuelled.
-/

namespace Kroftig

/-- Association-list lookup, mirroring Python `dict.get`: returns the value
stored at key `k` (keys are unique by construction of `aset`). -/
def alookup {α β : Type} [DecidableEq α] (k : α) : List (α × β) → Option β
  | [] => none
  | (k', v) :: rest => if k' = k then some v else alookup k rest

/-- Association-list update, mirroring Python `d[k] = v`: overwrite in
place if the key is present, else append at the end. -/
def aset {α β : Type} [DecidableEq α] (k : α) (v : β) : List (α × β) → List (α × β)
  | [] => [(k, v)]
  | (k', v') :: rest => if k' = k then (k, v) :: rest else (k', v') :: aset k v rest

/-- The keys of an association list, in order. -/
def akeys {α β : Type} (d : List (α × β)) : List α := d.map Prod.fst

/-- One entry of a git tree object: a name, the oid of the referenced
object, and whether the entry is of tree kind in the sense of the Python test `entry.type == tree`. -/
structure TreeEntry where
  name : String
  oid : Nat
  isTree : Bool
deriving DecidableEq

/-- A git tree object: an ordered list of entries. -/
structure GitTree where
  entries : List TreeEntry
deriving DecidableEq

/-- A git commit object: the oid of its root tree and the ordered list of
its parent commit ids (`commit.parents`, first parent first). -/
structure GitCommit where
  tree : Nat
  parents : List Nat
deriving DecidableEq

/-- The read-only object store (`pygit2.Repository`): resolves oids to
tree objects and commit ids to commit objects. -/
structure Store where
  trees : Nat → Option GitTree
  commits : Nat → Option GitCommit

/-- Model of the Python test `s.startswith(p)`: decide on the underlying
character lists whether `p` is a prefix of `s`. -/
def strStarts (s p : String) : Bool := p.data.isPrefixOf s.data

/-- Model of `os.path.join(pfx, name)` for the simple relative names git uses. -/
def pathJoin (pfx name : String) : String :=
  if pfx = "" then name else pfx ++ "/" ++ name

/-- Embedding of `_read_tree_inner`: walk the entries of a tree,
descending (with fuel) toward the filter path, and record each entry that
is in scope in the accumulating dict.  `none` models a failed object-store
lookup or exhausted recursion fuel. -/
def readTreeEntries (store : Store) (fp : String) :
    Nat → List TreeEntry → String → List (String × Nat) → Option (List (String × Nat))
  | _, [], _, acc => some acc
  | 0, _ :: _, _, _ => none
  | Nat.succ fuel, e :: rest, pfx, acc =>
    let path := pathJoin pfx e.name
    if fp ≠ "" ∧ (fp = path ∨ strStarts fp (path ++ "/")) then
      if e.isTree then
        match store.trees e.oid with
        | none => none
        | some sub =>
          match readTreeEntries store fp fuel sub.entries path acc with
          | none => none
          | some acc' => readTreeEntries store fp fuel rest pfx acc'
      else
        readTreeEntries store fp fuel rest pfx acc
    else
      if fp = "" ∨ strStarts path (fp ++ "/") then
        readTreeEntries store fp fuel rest pfx (aset path e.oid acc)
      else
        readTreeEntries store fp fuel rest pfx acc

/-- Embedding of `_read_tree`: flatten the tree of `c` under filter path
`fp`, starting from an empty dict and empty path. -/
def readTree (store : Store) (tfuel : Nat) (c : GitCommit) (fp : String) :
    Option (List (String × Nat)) :=
  match store.trees c.tree with
  | none => none
  | some t => readTreeEntries store fp tfuel t.entries "" []

/-- The per-path working record of the resolver
(the dict with keys `oid` and `latest` in the Python source); `latest` holds the
commit id of the current provenance frontier for the path. -/
structure PathDict where
  oid : Nat
  latest : Nat
deriving DecidableEq

/-- The per-commit record stored at `commits[hex]`, with fields `tree` and `held`:
the cached flat tree and the held (not yet resolved) path entries whose
provenance search currently sits at this commit. -/
structure CommitState where
  tree : List (String × Nat)
  held : List (String × PathDict)
deriving DecidableEq

/-- The full mutable state of one resolver run: the commit cache, the
`resolved` output list, and the `pending_commits` set (as a duplicate-free
list). -/
structure RState where
  commits : List (Nat × CommitState)
  resolved : List (String × PathDict)
  pending : List Nat
deriving DecidableEq

/-- Model of `pending_commits.add(x)`: add to the set if not already present. -/
def setAdd (l : List Nat) (x : Nat) : List Nat :=
  if x ∈ l then l else l ++ [x]

/-- Insert `pd` into the `held` dict of the cache entry for commit `h`
(the Python assignment storing `path_dict` under `path` in the held dict of `parent.hex`). -/
def heldSet (cs : List (Nat × CommitState)) (h : Nat) (path : String) (pd : PathDict) :
    List (Nat × CommitState) :=
  cs.map (fun p => if p.1 = h then (p.1, ⟨p.2.tree, aset path pd p.2.held⟩) else p)

/-- Clear the held dict of commit `h`, as the Python loop does after taking `working`. -/
def clearHeld (cs : List (Nat × CommitState)) (h : Nat) : List (Nat × CommitState) :=
  cs.map (fun p => if p.1 = h then (p.1, ⟨p.2.tree, []⟩) else p)

/-- The inner `for parent_commit in commit.parents` scan for one held path:
lazily flatten the tree of each parent (through the cache), and advance the path
into the first parent whose flat tree maps it to the same oid.  Returns the
updated cache and pending set, and `some pd'` when a parent matched
(`found = True`), `none` when no parent matched.  The outer `Option` is the
error monad for failed store lookups. -/
def scanParents (store : Store) (tfuel : Nat) (fp : String) (path : String) (pd : PathDict) :
    List Nat → List (Nat × CommitState) → List Nat →
    Option (List (Nat × CommitState) × List Nat × Option PathDict)
  | [], cs, pend => some (cs, pend, none)
  | ph :: rest, cs, pend =>
    match store.commits ph with
    | none => none
    | some pc =>
      match alookup ph cs with
      | some st =>
        match alookup path st.tree with
        | some poid =>
          if poid = pd.oid then
            some (heldSet cs ph path { pd with latest := ph }, setAdd pend ph,
                  some { pd with latest := ph })
          else scanParents store tfuel fp path pd rest cs pend
        | none => scanParents store tfuel fp path pd rest cs pend
      | none =>
        match readTree store tfuel pc fp with
        | none => none
        | some pt =>
          let cs' := cs ++ [(ph, ⟨pt, []⟩)]
          match alookup path pt with
          | some poid =>
            if poid = pd.oid then
              some (heldSet cs' ph path { pd with latest := ph }, setAdd pend ph,
                    some { pd with latest := ph })
            else scanParents store tfuel fp path pd rest cs' pend
          | none => scanParents store tfuel fp path pd rest cs' pend

/-- The `for (path, path_dict) in working.items()` loop over the held
entries of the popped commit `c`: each path either advances into a parent
(first match wins) or is appended to `resolved`. -/
def processHeld (store : Store) (tfuel : Nat) (fp : String) (c : GitCommit) :
    List (String × PathDict) → List (Nat × CommitState) → List Nat →
    List (String × PathDict) →
    Option (List (Nat × CommitState) × List Nat × List (String × PathDict))
  | [], cs, pend, res => some (cs, pend, res)
  | (path, pd) :: rest, cs, pend, res =>
    match scanParents store tfuel fp path pd c.parents cs pend with
    | none => none
    | some (cs', pend', found) =>
      match found with
      | some _ => processHeld store tfuel fp c rest cs' pend' res
      | none => processHeld store tfuel fp c rest cs' pend' (res ++ [(path, pd)])

/-- The `while pending_commits:` loop, fuelled.  `sched` chooses which
pending commit `set.pop()` removes (Python leaves the order unspecified). -/
def runLoop (store : Store) (tfuel : Nat) (fp : String) (sched : List Nat → Nat) :
    Nat → RState → Option (List (String × PathDict))
  | fuel, st =>
    match st.pending with
    | [] => some st.resolved
    | _ :: _ =>
      match fuel with
      | 0 => none
      | Nat.succ fuel' =>
        let chex := sched st.pending
        match store.commits chex with
        | none => none
        | some c =>
          match alookup chex st.commits with
          | none => none
          | some cst =>
            match processHeld store tfuel fp c cst.held
                (clearHeld st.commits chex) (st.pending.erase chex) st.resolved with
            | none => none
            | some (cs', pend', res') => runLoop store tfuel fp sched fuel' ⟨cs', res', pend'⟩

/-- Unfolding equation of `runLoop` at an empty pending set. -/
theorem runLoop_nil (store : Store) (tfuel : Nat) (fp : String)
    (sched : List Nat → Nat) (fuel : Nat) (cs : List (Nat × CommitState))
    (res : List (String × PathDict)) :
    runLoop store tfuel fp sched fuel ⟨cs, res, []⟩ = some res := by
  cases fuel with
  | zero => rfl
  | succ f => rfl

/-- Unfolding equation of `runLoop` at a non-empty pending set with
positive fuel. -/
theorem runLoop_step (store : Store) (tfuel : Nat) (fp : String)
    (sched : List Nat → Nat) (fuel : Nat) (cs : List (Nat × CommitState))
    (res : List (String × PathDict)) (p : Nat) (ps : List Nat) :
    runLoop store tfuel fp sched (fuel + 1) ⟨cs, res, p :: ps⟩ =
      (match store.commits (sched (p :: ps)) with
       | none => none
       | some c =>
         match alookup (sched (p :: ps)) cs with
         | none => none
         | some cst =>
           match processHeld store tfuel fp c cst.held
               (clearHeld cs (sched (p :: ps)))
               ((p :: ps).erase (sched (p :: ps))) res with
           | none => none
           | some (cs2, pend2, res2) =>
             runLoop store tfuel fp sched fuel ⟨cs2, res2, pend2⟩) := rfl

/-- Embedding of `get_latest_changing_commits_for_tree`: flatten the root
tree of the root commit, seed every path with `latest = root`, and run the frontier
loop.  Fuel `tfuel` bounds tree recursion, `lfuel` bounds loop iterations;
`sched` resolves the `set.pop()` nondeterminism. -/
def get_latest_changing_commits_for_tree (store : Store) (tfuel lfuel : Nat)
    (sched : List Nat → Nat) (rootHex : Nat) (fp : String) :
    Option (List (String × PathDict)) :=
  match store.commits rootHex with
  | none => none
  | some root =>
    match readTree store tfuel root fp with
    | none => none
    | some tree =>
      let held := tree.map (fun p => (p.1, PathDict.mk p.2 rootHex))
      runLoop store tfuel fp sched lfuel
        ⟨[(rootHex, ⟨tree, held⟩)], [], [rootHex]⟩

/-! ### Association-list lemmas -/

theorem alookup_nil {α β : Type} [DecidableEq α] (k : α) :
    alookup k ([] : List (α × β)) = none := rfl

theorem alookup_cons {α β : Type} [DecidableEq α] (k k' : α) (v : β) (d : List (α × β)) :
    alookup k ((k', v) :: d) = if k' = k then some v else alookup k d := rfl

theorem mem_akeys_cons {α β : Type} (k a : α) (b : β) (d : List (α × β)) :
    k ∈ akeys ((a, b) :: d) ↔ k = a ∨ k ∈ akeys d := by
  simp [akeys]

theorem mem_akeys_of_mem {α β : Type} {k : α} {v : β} {d : List (α × β)}
    (h : (k, v) ∈ d) : k ∈ akeys d :=
  List.mem_map.mpr ⟨(k, v), h, rfl⟩

theorem alookup_aset_self {α β : Type} [DecidableEq α] (k : α) (v : β) (d : List (α × β)) :
    alookup k (aset k v d) = some v := by
  induction d with
  | nil => simp [aset, alookup]
  | cons p rest ih =>
    obtain ⟨a, b⟩ := p
    by_cases h : a = k
    · simp [aset, h, alookup]
    · simp [aset, h, alookup, ih]

theorem alookup_aset_ne {α β : Type} [DecidableEq α] (k k' : α) (v : β) (d : List (α × β))
    (h : k' ≠ k) : alookup k (aset k' v d) = alookup k d := by
  induction d with
  | nil => simp [aset, alookup, h]
  | cons p rest ih =>
    obtain ⟨a, b⟩ := p
    by_cases h2 : a = k'
    · subst h2
      show alookup k (if a = a then (a, v) :: rest else (a, b) :: aset a v rest) =
        alookup k ((a, b) :: rest)
      rw [if_pos rfl]
      simp [alookup, h]
    · show alookup k (if a = k' then (k', v) :: rest else (a, b) :: aset k' v rest) =
        alookup k ((a, b) :: rest)
      rw [if_neg h2]
      by_cases h3 : a = k
      · simp [alookup, h3]
      · simp [alookup, h3, ih]

theorem alookup_eq_none {α β : Type} [DecidableEq α] (k : α) (d : List (α × β)) :
    alookup k d = none ↔ k ∉ akeys d := by
  induction d with
  | nil => simp [alookup, akeys]
  | cons p rest ih =>
    obtain ⟨a, b⟩ := p
    by_cases h : a = k
    · subst h
      simp [alookup, akeys]
    · rw [alookup_cons, if_neg h, ih]
      rw [mem_akeys_cons]
      constructor
      · intro hk hmem
        rcases hmem with h1 | h1
        · exact h h1.symm
        · exact hk h1
      · intro hk h1
        exact hk (Or.inr h1)

theorem alookup_mem {α β : Type} [DecidableEq α] {k : α} {v : β} {d : List (α × β)}
    (h : alookup k d = some v) : (k, v) ∈ d := by
  induction d with
  | nil => simp [alookup] at h
  | cons p rest ih =>
    obtain ⟨a, b⟩ := p
    by_cases h2 : a = k
    · subst h2
      rw [alookup_cons, if_pos rfl] at h
      cases h
      simp
    · rw [alookup_cons, if_neg h2] at h
      exact List.mem_cons_of_mem _ (ih h)

theorem mem_akeys_of_alookup {α β : Type} [DecidableEq α] {k : α} {v : β}
    {d : List (α × β)} (h : alookup k d = some v) : k ∈ akeys d :=
  mem_akeys_of_mem (alookup_mem h)

theorem alookup_isSome {α β : Type} [DecidableEq α] (k : α) (d : List (α × β)) :
    (alookup k d).isSome ↔ k ∈ akeys d := by
  cases h : alookup k d with
  | none =>
    simp only [Option.isSome_none, Bool.false_eq_true, false_iff]
    exact (alookup_eq_none k d).mp h
  | some v =>
    simp only [Option.isSome_some, true_iff]
    exact mem_akeys_of_alookup h

theorem alookup_of_mem_nodup {α β : Type} [DecidableEq α] {k : α} {v : β} {d : List (α × β)}
    (hnd : (akeys d).Nodup) (h : (k, v) ∈ d) : alookup k d = some v := by
  induction d with
  | nil => simp at h
  | cons p rest ih =>
    obtain ⟨a, b⟩ := p
    have hnd2 := List.nodup_cons.mp hnd
    rcases List.mem_cons.mp h with h1 | h1
    · injection h1 with e1 e2
      subst e1
      subst e2
      simp [alookup]
    · have hak : k ∈ akeys rest := mem_akeys_of_mem h1
      have hne : a ≠ k := fun e => hnd2.1 (e ▸ hak)
      rw [alookup_cons, if_neg hne]
      exact ih hnd2.2 h1

theorem akeys_append {α β : Type} (d d' : List (α × β)) :
    akeys (d ++ d') = akeys d ++ akeys d' := by
  simp [akeys]

theorem aset_of_not_mem {α β : Type} [DecidableEq α] {k : α} (v : β) {d : List (α × β)}
    (h : k ∉ akeys d) : aset k v d = d ++ [(k, v)] := by
  induction d with
  | nil => simp [aset]
  | cons p rest ih =>
    obtain ⟨a, b⟩ := p
    have h1 : a ≠ k := fun e => h ((mem_akeys_cons k a b rest).mpr (Or.inl e.symm))
    have h2 : k ∉ akeys rest := fun e => h ((mem_akeys_cons k a b rest).mpr (Or.inr e))
    simp [aset, h1, ih h2]

theorem akeys_aset_of_mem {α β : Type} [DecidableEq α] {k : α} (v : β) {d : List (α × β)}
    (h : k ∈ akeys d) : akeys (aset k v d) = akeys d := by
  induction d with
  | nil => simp [akeys] at h
  | cons p rest ih =>
    obtain ⟨a, b⟩ := p
    by_cases h2 : a = k
    · simp [aset, h2, akeys]
    · have h3 : k ∈ akeys rest := by
        rcases (mem_akeys_cons k a b rest).mp h with h4 | h4
        · exact absurd h4.symm h2
        · exact h4
      have h5 := ih h3
      simp only [akeys] at h5 ⊢
      simp [aset, h2, h5]

theorem nodup_akeys_aset {α β : Type} [DecidableEq α] (k : α) (v : β) {d : List (α × β)}
    (hnd : (akeys d).Nodup) : (akeys (aset k v d)).Nodup := by
  by_cases h : k ∈ akeys d
  · rw [akeys_aset_of_mem v h]
    exact hnd
  · rw [aset_of_not_mem v h, akeys_append]
    refine hnd.append (by simp [akeys]) ?_
    intro a ha hb
    simp [akeys] at hb
    subst hb
    exact h ha

theorem alookup_append_some {α β : Type} [DecidableEq α] {k : α} {v : β} {d : List (α × β)}
    (d' : List (α × β)) (h : alookup k d = some v) : alookup k (d ++ d') = some v := by
  induction d with
  | nil => simp [alookup] at h
  | cons p rest ih =>
    obtain ⟨a, b⟩ := p
    by_cases h2 : a = k
    · rw [alookup_cons, if_pos h2] at h
      rw [List.cons_append, alookup_cons, if_pos h2]
      exact h
    · rw [alookup_cons, if_neg h2] at h
      rw [List.cons_append, alookup_cons, if_neg h2]
      exact ih h

theorem alookup_append_none {α β : Type} [DecidableEq α] {k : α} {d : List (α × β)}
    (d' : List (α × β)) (h : alookup k d = none) : alookup k (d ++ d') = alookup k d' := by
  induction d with
  | nil => simp
  | cons p rest ih =>
    obtain ⟨a, b⟩ := p
    by_cases h2 : a = k
    · rw [alookup_cons, if_pos h2] at h
      cases h
    · rw [alookup_cons, if_neg h2] at h
      rw [List.cons_append, alookup_cons, if_neg h2]
      exact ih h

/-! ### Cache-structure lemmas -/

/-- All path keys currently held anywhere in the commit cache. -/
def heldPaths (cs : List (Nat × CommitState)) : List String :=
  cs.flatMap (fun p => akeys p.2.held)

theorem heldPaths_nil : heldPaths [] = [] := rfl

theorem heldPaths_cons (p : Nat × CommitState) (cs : List (Nat × CommitState)) :
    heldPaths (p :: cs) = akeys p.2.held ++ heldPaths cs := rfl

theorem heldPaths_append (cs cs' : List (Nat × CommitState)) :
    heldPaths (cs ++ cs') = heldPaths cs ++ heldPaths cs' := by
  simp [heldPaths]

theorem mem_aset {α β : Type} [DecidableEq α] {k : α} {v : β} {d : List (α × β)}
    {x : α × β} (h : x ∈ aset k v d) : x ∈ d ∨ x = (k, v) := by
  induction d with
  | nil =>
    simp [aset] at h
    right
    exact h
  | cons p rest ih =>
    obtain ⟨a, b⟩ := p
    by_cases h2 : a = k
    · simp only [aset, if_pos h2, List.mem_cons] at h
      rcases h with h | h
      · right; exact h
      · left; exact List.mem_cons_of_mem _ h
    · simp only [aset, if_neg h2, List.mem_cons] at h
      rcases h with h | h
      · left
        rw [h]
        exact List.mem_cons_self _ _
      · rcases ih h with h3 | h3
        · left; exact List.mem_cons_of_mem _ h3
        · right; exact h3

theorem heldSet_cons (a : Nat) (st : CommitState) (cs : List (Nat × CommitState))
    (h : Nat) (path : String) (pd : PathDict) :
    heldSet ((a, st) :: cs) h path pd =
      (if a = h then (a, CommitState.mk st.tree (aset path pd st.held)) else (a, st)) ::
        heldSet cs h path pd := rfl

theorem clearHeld_cons (a : Nat) (st : CommitState) (cs : List (Nat × CommitState))
    (h : Nat) :
    clearHeld ((a, st) :: cs) h =
      (if a = h then (a, CommitState.mk st.tree []) else (a, st)) :: clearHeld cs h := rfl

theorem akeys_heldSet (cs : List (Nat × CommitState)) (h : Nat) (path : String)
    (pd : PathDict) : akeys (heldSet cs h path pd) = akeys cs := by
  induction cs with
  | nil => rfl
  | cons p rest ih =>
    obtain ⟨a, st⟩ := p
    rw [heldSet_cons]
    by_cases h2 : a = h
    · rw [if_pos h2]
      show a :: akeys (heldSet rest h path pd) = a :: akeys rest
      rw [ih]
    · rw [if_neg h2]
      show a :: akeys (heldSet rest h path pd) = a :: akeys rest
      rw [ih]

theorem akeys_clearHeld (cs : List (Nat × CommitState)) (h : Nat) :
    akeys (clearHeld cs h) = akeys cs := by
  induction cs with
  | nil => rfl
  | cons p rest ih =>
    obtain ⟨a, st⟩ := p
    rw [clearHeld_cons]
    by_cases h2 : a = h
    · rw [if_pos h2]
      show a :: akeys (clearHeld rest h) = a :: akeys rest
      rw [ih]
    · rw [if_neg h2]
      show a :: akeys (clearHeld rest h) = a :: akeys rest
      rw [ih]

theorem alookup_heldSet_self (cs : List (Nat × CommitState)) (h : Nat) (path : String)
    (pd : PathDict) :
    alookup h (heldSet cs h path pd) =
      (alookup h cs).map (fun st => ⟨st.tree, aset path pd st.held⟩) := by
  induction cs with
  | nil => rfl
  | cons p rest ih =>
    obtain ⟨a, st⟩ := p
    rw [heldSet_cons]
    by_cases h2 : a = h
    · rw [if_pos h2, alookup_cons, if_pos h2, alookup_cons, if_pos h2]
      rfl
    · rw [if_neg h2, alookup_cons, if_neg h2, alookup_cons, if_neg h2]
      exact ih

theorem alookup_heldSet_ne (cs : List (Nat × CommitState)) (h : Nat) (path : String)
    (pd : PathDict) (x : Nat) (hx : x ≠ h) :
    alookup x (heldSet cs h path pd) = alookup x cs := by
  induction cs with
  | nil => rfl
  | cons p rest ih =>
    obtain ⟨a, st⟩ := p
    rw [heldSet_cons]
    by_cases h2 : a = h
    · have h3 : a ≠ x := fun e => hx (e ▸ h2)
      rw [if_pos h2, alookup_cons, if_neg h3, alookup_cons, if_neg h3]
      exact ih
    · by_cases h3 : a = x
      · rw [if_neg h2, alookup_cons, if_pos h3, alookup_cons, if_pos h3]
      · rw [if_neg h2, alookup_cons, if_neg h3, alookup_cons, if_neg h3]
        exact ih

theorem alookup_clearHeld_self (cs : List (Nat × CommitState)) (h : Nat) :
    alookup h (clearHeld cs h) = (alookup h cs).map (fun st => ⟨st.tree, []⟩) := by
  induction cs with
  | nil => rfl
  | cons p rest ih =>
    obtain ⟨a, st⟩ := p
    rw [clearHeld_cons]
    by_cases h2 : a = h
    · rw [if_pos h2, alookup_cons, if_pos h2, alookup_cons, if_pos h2]
      rfl
    · rw [if_neg h2, alookup_cons, if_neg h2, alookup_cons, if_neg h2]
      exact ih

theorem alookup_clearHeld_ne (cs : List (Nat × CommitState)) (h : Nat) (x : Nat)
    (hx : x ≠ h) : alookup x (clearHeld cs h) = alookup x cs := by
  induction cs with
  | nil => rfl
  | cons p rest ih =>
    obtain ⟨a, st⟩ := p
    rw [clearHeld_cons]
    by_cases h2 : a = h
    · have h3 : a ≠ x := fun e => hx (e ▸ h2)
      rw [if_pos h2, alookup_cons, if_neg h3, alookup_cons, if_neg h3]
      exact ih
    · by_cases h3 : a = x
      · rw [if_neg h2, alookup_cons, if_pos h3, alookup_cons, if_pos h3]
      · rw [if_neg h2, alookup_cons, if_neg h3, alookup_cons, if_neg h3]
        exact ih

theorem heldSet_of_not_mem {cs : List (Nat × CommitState)} {h : Nat} (path : String)
    (pd : PathDict) (hm : h ∉ akeys cs) : heldSet cs h path pd = cs := by
  induction cs with
  | nil => rfl
  | cons p rest ih =>
    obtain ⟨a, st⟩ := p
    have h1 : a ≠ h := fun e => hm ((mem_akeys_cons h a st rest).mpr (Or.inl e.symm))
    have h2 : h ∉ akeys rest := fun e => hm ((mem_akeys_cons h a st rest).mpr (Or.inr e))
    rw [heldSet_cons, if_neg h1, ih h2]

theorem clearHeld_of_not_mem {cs : List (Nat × CommitState)} {h : Nat}
    (hm : h ∉ akeys cs) : clearHeld cs h = cs := by
  induction cs with
  | nil => rfl
  | cons p rest ih =>
    obtain ⟨a, st⟩ := p
    have h1 : a ≠ h := fun e => hm ((mem_akeys_cons h a st rest).mpr (Or.inl e.symm))
    have h2 : h ∉ akeys rest := fun e => hm ((mem_akeys_cons h a st rest).mpr (Or.inr e))
    rw [clearHeld_cons, if_neg h1, ih h2]

theorem heldPaths_heldSet_perm (cs : List (Nat × CommitState)) (h : Nat) (path : String)
    (pd : PathDict) (hnd : (akeys cs).Nodup) (st : CommitState)
    (hl : alookup h cs = some st) (hp : path ∉ akeys st.held) :
    List.Perm (heldPaths (heldSet cs h path pd)) (path :: heldPaths cs) := by
  induction cs with
  | nil => cases hl
  | cons p rest ih =>
    obtain ⟨a, cst⟩ := p
    have hnd2 := List.nodup_cons.mp (show (a :: akeys rest).Nodup from hnd)
    rw [heldSet_cons]
    by_cases h2 : a = h
    · subst h2
      rw [alookup_cons, if_pos rfl] at hl
      cases hl
      rw [if_pos rfl]
      rw [show heldSet rest a path pd = rest from heldSet_of_not_mem path pd hnd2.1]
      rw [heldPaths_cons, heldPaths_cons]
      show List.Perm (akeys (aset path pd st.held) ++ heldPaths rest) _
      rw [aset_of_not_mem pd hp, akeys_append]
      have e1 : akeys ([(path, pd)] : List (String × PathDict)) = [path] := rfl
      rw [e1]
      have hperm : List.Perm ((akeys st.held ++ [path]) ++ heldPaths rest)
          ((path :: akeys st.held) ++ heldPaths rest) :=
        List.Perm.append_right _ (List.perm_append_singleton path _)
      rw [List.cons_append] at hperm
      exact hperm
    · rw [alookup_cons, if_neg h2] at hl
      rw [if_neg h2]
      rw [heldPaths_cons, heldPaths_cons]
      exact List.Perm.trans (List.Perm.append_left _ (ih hnd2.2 hl)) List.perm_middle

theorem heldPaths_clearHeld_perm (cs : List (Nat × CommitState)) (h : Nat)
    (hnd : (akeys cs).Nodup) (st : CommitState) (hl : alookup h cs = some st) :
    List.Perm (heldPaths cs) (akeys st.held ++ heldPaths (clearHeld cs h)) := by
  induction cs with
  | nil => cases hl
  | cons p rest ih =>
    obtain ⟨a, cst⟩ := p
    have hnd2 := List.nodup_cons.mp (show (a :: akeys rest).Nodup from hnd)
    rw [clearHeld_cons]
    by_cases h2 : a = h
    · subst h2
      rw [alookup_cons, if_pos rfl] at hl
      cases hl
      rw [if_pos rfl]
      rw [show clearHeld rest a = rest from clearHeld_of_not_mem hnd2.1]
      rw [heldPaths_cons, heldPaths_cons]
      simp [akeys]
    · rw [alookup_cons, if_neg h2] at hl
      rw [if_neg h2]
      rw [heldPaths_cons, heldPaths_cons]
      refine List.Perm.trans (List.Perm.append_left _ (ih hnd2.2 hl)) ?_
      rw [← List.append_assoc, ← List.append_assoc]
      exact List.Perm.append_right _ List.perm_append_comm

/-! ### Flattener lemmas -/

theorem readTreeEntries_nodup (store : Store) (fp : String) (fuel : Nat)
    (entries : List TreeEntry) (pfx : String) (acc : List (String × Nat)) :
    ∀ out, readTreeEntries store fp fuel entries pfx acc = some out →
      (akeys acc).Nodup → (akeys out).Nodup := by
  induction fuel, entries, pfx, acc using readTreeEntries.induct store fp with
  | case1 fuel pfx acc =>
    intro out hout hacc
    rw [readTreeEntries] at hout
    cases hout
    exact hacc
  | case2 e rest pfx acc =>
    intro out hout hacc
    rw [readTreeEntries] at hout
    exact Option.noConfusion hout
  | case3 fuel e rest pfx acc path hcond htree hsub =>
    intro out hout hacc
    rw [readTreeEntries] at hout
    rw [if_pos hcond, if_pos htree] at hout
    simp only [hsub] at hout
    exact Option.noConfusion hout
  | case4 fuel e rest pfx acc path hcond htree sub hsub hrec ih =>
    intro out hout hacc
    rw [readTreeEntries] at hout
    rw [if_pos hcond, if_pos htree] at hout
    have hrec' : readTreeEntries store fp fuel sub.entries (pathJoin pfx e.name) acc
        = none := hrec
    simp only [hsub, hrec'] at hout
    exact Option.noConfusion hout
  | case5 fuel e rest pfx acc path hcond htree sub hsub acc' hrec ih1 ih2 =>
    intro out hout hacc
    rw [readTreeEntries] at hout
    rw [if_pos hcond, if_pos htree] at hout
    have hrec' : readTreeEntries store fp fuel sub.entries (pathJoin pfx e.name) acc
        = some acc' := hrec
    simp only [hsub, hrec'] at hout
    exact ih2 out hout (ih1 acc' hrec hacc)
  | case6 fuel e rest pfx acc path hcond htree ih =>
    intro out hout hacc
    have hcond' : fp ≠ "" ∧ (fp = pathJoin pfx e.name ∨
        strStarts fp (pathJoin pfx e.name ++ "/")) := hcond
    rw [readTreeEntries.eq_def] at hout
    dsimp only at hout
    rw [if_pos hcond', if_neg htree] at hout
    exact ih out hout hacc
  | case7 fuel e rest pfx acc path hcond hin ih =>
    intro out hout hacc
    have hcond' : ¬(fp ≠ "" ∧ (fp = pathJoin pfx e.name ∨
        strStarts fp (pathJoin pfx e.name ++ "/"))) := hcond
    have hin' : fp = "" ∨ strStarts (pathJoin pfx e.name) (fp ++ "/") := hin
    rw [readTreeEntries.eq_def] at hout
    dsimp only at hout
    rw [if_neg hcond', if_pos hin'] at hout
    exact ih out hout (nodup_akeys_aset _ _ hacc)
  | case8 fuel e rest pfx acc path hcond hin ih =>
    intro out hout hacc
    have hcond' : ¬(fp ≠ "" ∧ (fp = pathJoin pfx e.name ∨
        strStarts fp (pathJoin pfx e.name ++ "/"))) := hcond
    have hin' : ¬(fp = "" ∨ strStarts (pathJoin pfx e.name) (fp ++ "/")) := hin
    rw [readTreeEntries.eq_def] at hout
    dsimp only at hout
    rw [if_neg hcond', if_neg hin'] at hout
    exact ih out hout hacc

theorem readTree_nodup {store : Store} {tfuel : Nat} {c : GitCommit} {fp : String}
    {t : List (String × Nat)} (h : readTree store tfuel c fp = some t) :
    (akeys t).Nodup := by
  unfold readTree at h
  cases hs : store.trees c.tree with
  | none => rw [hs] at h; cases h
  | some gt =>
    rw [hs] at h
    exact readTreeEntries_nodup store fp tfuel gt.entries "" [] t h List.nodup_nil

/-! ### The deterministic per-path provenance walk -/

/-- The flat tree of the commit with id `chex`, under the fixed filter
path: resolve the commit, then flatten its tree. -/
def flatTreeOf (store : Store) (tfuel : Nat) (fp : String) (chex : Nat) :
    Option (List (String × Nat)) :=
  match store.commits chex with
  | none => none
  | some c => readTree store tfuel c fp

/-- One step of the per-path provenance walk over a parent list: find the
first parent whose flat tree maps `path` to `oid`.  `some (some p)` means
the walk advances into parent `p`; `some none` means no parent matches
(the path resolves here); `none` means a store lookup failed. -/
def walkStep (store : Store) (tfuel : Nat) (fp : String) (path : String) (oid : Nat) :
    List Nat → Option (Option Nat)
  | [] => some none
  | ph :: rest =>
    match flatTreeOf store tfuel fp ph with
    | none => none
    | some pt =>
      match alookup path pt with
      | some poid =>
        if poid = oid then some (some ph) else walkStep store tfuel fp path oid rest
      | none => walkStep store tfuel fp path oid rest

/-- The complete provenance walk for one path: starting at commit `c`, the
walk repeatedly advances into the first matching parent and ends at `e`,
the earliest ancestor reachable this way holding the same content. -/
inductive WalksTo (store : Store) (tfuel : Nat) (fp : String) (path : String) (oid : Nat) :
    Nat → Nat → Prop
  | done (c : Nat) (gc : GitCommit) :
      store.commits c = some gc →
      walkStep store tfuel fp path oid gc.parents = some none →
      WalksTo store tfuel fp path oid c c
  | step (c : Nat) (gc : GitCommit) (p e : Nat) :
      store.commits c = some gc →
      walkStep store tfuel fp path oid gc.parents = some (some p) →
      WalksTo store tfuel fp path oid p e →
      WalksTo store tfuel fp path oid c e

/-- Reachability along the walk: `RSteps c b` holds when the walk starting
at `c` passes through `b` after zero or more advance steps. -/
inductive RSteps (store : Store) (tfuel : Nat) (fp : String) (path : String) (oid : Nat) :
    Nat → Nat → Prop
  | refl (c : Nat) : RSteps store tfuel fp path oid c c
  | tail (c b p : Nat) (gb : GitCommit) :
      RSteps store tfuel fp path oid c b →
      store.commits b = some gb →
      walkStep store tfuel fp path oid gb.parents = some (some p) →
      RSteps store tfuel fp path oid c p

/-- The walk relation is a partial function: a walk from `c` has at most
one endpoint. -/
theorem walksTo_unique {store : Store} {tfuel : Nat} {fp path : String} {oid : Nat}
    {c e1 e2 : Nat} (h1 : WalksTo store tfuel fp path oid c e1)
    (h2 : WalksTo store tfuel fp path oid c e2) : e1 = e2 := by
  induction h1 generalizing e2 with
  | done c gc hc hw =>
    cases h2 with
    | done c2 gc2 hc2 hw2 => rfl
    | step c2 gc2 p2 e2 hc2 hw2 hrest =>
      rw [hc] at hc2
      cases hc2
      rw [hw] at hw2
      cases hw2
  | step c gc p e hc hw hrest ih =>
    cases h2 with
    | done c2 gc2 hc2 hw2 =>
      rw [hc] at hc2
      cases hc2
      rw [hw] at hw2
      cases hw2
    | step c2 gc2 p2 e2 hc2 hw2 hrest2 =>
      rw [hc] at hc2
      cases hc2
      rw [hw] at hw2
      cases hw2
      exact ih hrest2

/-- A walk suffix lifts through reachability: if the walk from `c` passes
through `b` and from `b` it ends at `e`, then from `c` it ends at `e`. -/
theorem rsteps_walksTo {store : Store} {tfuel : Nat} {fp path : String} {oid : Nat}
    {c b e : Nat} (h : RSteps store tfuel fp path oid c b)
    (h2 : WalksTo store tfuel fp path oid b e) : WalksTo store tfuel fp path oid c e := by
  induction h generalizing e with
  | refl => exact h2
  | tail b p gb hcb hb hw ih =>
    exact ih (WalksTo.step b gb p e hb hw h2)

/-- Reachability extends by one advance step at the end. -/
theorem rsteps_snoc {store : Store} {tfuel : Nat} {fp path : String} {oid : Nat}
    {c b p : Nat} {gb : GitCommit} (h : RSteps store tfuel fp path oid c b)
    (hb : store.commits b = some gb)
    (hw : walkStep store tfuel fp path oid gb.parents = some (some p)) :
    RSteps store tfuel fp path oid c p :=
  RSteps.tail c b p gb h hb hw

/-! ### Relating the operational parent scan to the walk -/

/-- Cache correctness: every cached entry stores exactly the flat tree of
its commit under the fixed filter path. -/
def CacheOk (store : Store) (tfuel : Nat) (fp : String)
    (cs : List (Nat × CommitState)) : Prop :=
  ∀ h cst, alookup h cs = some cst → flatTreeOf store tfuel fp h = some cst.tree

/-- The relation between the cache before and after a lazy-flattening scan:
existing entries are preserved, fresh entries are correctly flattened
caches with empty held dicts, the multiset of held paths is unchanged, and
key uniqueness is preserved. -/
structure Grown (store : Store) (tfuel : Nat) (fp : String)
    (cs cs' : List (Nat × CommitState)) : Prop where
  keep : ∀ h v, alookup h cs = some v → alookup h cs' = some v
  new : ∀ h v, alookup h cs' = some v →
    alookup h cs = some v ∨ (v.held = [] ∧ flatTreeOf store tfuel fp h = some v.tree)
  hp : heldPaths cs' = heldPaths cs
  nd : (akeys cs).Nodup → (akeys cs').Nodup

theorem grown_refl (store : Store) (tfuel : Nat) (fp : String)
    (cs : List (Nat × CommitState)) : Grown store tfuel fp cs cs :=
  ⟨fun _ _ h => h, fun _ _ h => Or.inl h, rfl, fun h => h⟩

theorem grown_trans {store : Store} {tfuel : Nat} {fp : String}
    {cs cs' cs'' : List (Nat × CommitState)} (g1 : Grown store tfuel fp cs cs')
    (g2 : Grown store tfuel fp cs' cs'') : Grown store tfuel fp cs cs'' := by
  refine ⟨fun h v hv => g2.keep h v (g1.keep h v hv), fun h v hv => ?_,
    g2.hp.trans g1.hp, fun hnd => g2.nd (g1.nd hnd)⟩
  rcases g2.new h v hv with h2 | h2
  · exact g1.new h v h2
  · exact Or.inr h2

theorem grown_snoc {store : Store} {tfuel : Nat} {fp : String}
    {cs : List (Nat × CommitState)} {ph : Nat} {pt : List (String × Nat)}
    (hph : alookup ph cs = none) (hft : flatTreeOf store tfuel fp ph = some pt) :
    Grown store tfuel fp cs (cs ++ [(ph, ⟨pt, []⟩)]) := by
  refine ⟨fun h v hv => alookup_append_some _ hv, fun h v hv => ?_, ?_, fun hnd => ?_⟩
  · cases hv2 : alookup h cs with
    | some w =>
      rw [alookup_append_some _ hv2] at hv
      exact Or.inl hv
    | none =>
      rw [alookup_append_none _ hv2] at hv
      rw [alookup_cons] at hv
      by_cases he : ph = h
      · rw [if_pos he] at hv
        cases hv
        subst he
        exact Or.inr ⟨rfl, hft⟩
      · rw [if_neg he] at hv
        cases hv
  · rw [heldPaths_append]
    simp [heldPaths, akeys]
  · rw [akeys_append]
    refine hnd.append (by simp [akeys]) ?_
    intro a ha hb
    simp [akeys] at hb
    subst hb
    exact ((alookup_eq_none a cs).mp hph) ha

theorem cacheOk_grown {store : Store} {tfuel : Nat} {fp : String}
    {cs cs' : List (Nat × CommitState)} (hOk : CacheOk store tfuel fp cs)
    (g : Grown store tfuel fp cs cs') : CacheOk store tfuel fp cs' := by
  intro h cst hv
  rcases g.new h cst hv with h2 | h2
  · exact hOk h cst h2
  · exact h2.2

/-- A successful advance step lands on one of the scanned parents. -/
theorem walkStep_mem {store : Store} {tfuel : Nat} {fp path : String} {oid : Nat}
    {ps : List Nat} {ph : Nat}
    (h : walkStep store tfuel fp path oid ps = some (some ph)) : ph ∈ ps := by
  induction ps with
  | nil => cases h
  | cons q rest ih =>
    cases hft : flatTreeOf store tfuel fp q with
    | none =>
      simp only [walkStep, hft] at h
      exact Option.noConfusion h
    | some pt =>
      cases hl : alookup path pt with
      | none =>
        simp only [walkStep, hft, hl] at h
        exact List.mem_cons_of_mem _ (ih h)
      | some poid =>
        simp only [walkStep, hft, hl] at h
        by_cases he : poid = oid
        · rw [if_pos he] at h
          injection h with h
          injection h with h
          rw [h]
          exact List.mem_cons_self _ _
        · rw [if_neg he] at h
          exact List.mem_cons_of_mem _ (ih h)

/-- A successful advance step into `p` means the flat tree of `p` maps the
path to the walked oid. -/
theorem walkStep_some_flat {store : Store} {tfuel : Nat} {fp path : String} {oid : Nat}
    {ps : List Nat} {ph : Nat}
    (h : walkStep store tfuel fp path oid ps = some (some ph)) :
    ∃ pt, flatTreeOf store tfuel fp ph = some pt ∧ alookup path pt = some oid := by
  induction ps with
  | nil => cases h
  | cons q rest ih =>
    cases hft : flatTreeOf store tfuel fp q with
    | none =>
      simp only [walkStep, hft] at h
      exact Option.noConfusion h
    | some pt =>
      cases hl : alookup path pt with
      | none =>
        simp only [walkStep, hft, hl] at h
        exact ih h
      | some poid =>
        simp only [walkStep, hft, hl] at h
        by_cases he : poid = oid
        · rw [if_pos he] at h
          injection h with h
          injection h with h
          subst he
          rw [← h]
          exact ⟨pt, hft, hl⟩
        · rw [if_neg he] at h
          exact ih h

/-- Specification of `scanParents` in terms of the pure walk step: the scan
fails exactly when the walk step fails, and on success it returns the pure
walk-step outcome while only growing the cache (plus, on a match, the one
held insertion and pending addition the Python code performs). -/
theorem scanParents_spec (store : Store) (tfuel : Nat) (fp path : String) (pd : PathDict)
    (ps : List Nat) :
    ∀ cs pend, CacheOk store tfuel fp cs →
    ((scanParents store tfuel fp path pd ps cs pend = none ↔
      walkStep store tfuel fp path pd.oid ps = none) ∧
    (∀ cs2 pend2 r, scanParents store tfuel fp path pd ps cs pend = some (cs2, pend2, r) →
      ∃ csg, Grown store tfuel fp cs csg ∧
        ((r = none ∧ walkStep store tfuel fp path pd.oid ps = some none ∧
            cs2 = csg ∧ pend2 = pend) ∨
         (∃ ph, r = some { pd with latest := ph } ∧
            walkStep store tfuel fp path pd.oid ps = some (some ph) ∧
            cs2 = heldSet csg ph path { pd with latest := ph } ∧
            pend2 = setAdd pend ph ∧ (∃ stg, alookup ph csg = some stg))))) := by
  induction ps with
  | nil =>
    intro cs pend hOk
    constructor
    · rw [scanParents, walkStep]
      constructor
      · intro h; cases h
      · intro h; cases h
    · intro cs2 pend2 r h
      rw [scanParents] at h
      injection h with h
      injection h with h1 h
      injection h with h2 h3
      exact ⟨cs, grown_refl store tfuel fp cs,
        Or.inl ⟨h3.symm, by rw [walkStep], h1.symm, h2.symm⟩⟩
  | cons ph rest ih =>
    intro cs pend hOk
    cases hc : store.commits ph with
    | none =>
      have hft : flatTreeOf store tfuel fp ph = none := by rw [flatTreeOf, hc]
      constructor
      · simp [scanParents, walkStep, hc, hft]
      · intro cs2 pend2 r h
        simp only [scanParents, hc] at h
        exact Option.noConfusion h
    | some pc =>
      cases hcache : alookup ph cs with
      | some st =>
        have hft : flatTreeOf store tfuel fp ph = some st.tree := hOk ph st hcache
        cases hl : alookup path st.tree with
        | some poid =>
          by_cases he : poid = pd.oid
          · subst he
            constructor
            · simp [scanParents, walkStep, hc, hcache, hl, hft]
            · intro cs2 pend2 r h
              simp only [scanParents, hc, hcache, hl] at h
              rw [if_true] at h
              injection h with h
              injection h with h1 h
              injection h with h2 h3
              refine ⟨cs, grown_refl store tfuel fp cs, Or.inr ⟨ph, h3.symm, ?_,
                h1.symm, h2.symm, st, hcache⟩⟩
              simp [walkStep, hft, hl]
          · have hrec := ih cs pend hOk
            constructor
            · simp only [scanParents, hc, hcache, hl, walkStep, hft]
              rw [if_neg he, if_neg he]
              exact hrec.1
            · intro cs2 pend2 r h
              simp only [scanParents, hc, hcache, hl] at h
              rw [if_neg he] at h
              rcases hrec.2 cs2 pend2 r h with ⟨csg, hg, hcase⟩
              refine ⟨csg, hg, ?_⟩
              simp only [walkStep, hft, hl]
              rw [if_neg he]
              exact hcase
        | none =>
          have hrec := ih cs pend hOk
          constructor
          · simp only [scanParents, hc, hcache, hl, walkStep, hft]
            exact hrec.1
          · intro cs2 pend2 r h
            simp only [scanParents, hc, hcache, hl] at h
            rcases hrec.2 cs2 pend2 r h with ⟨csg, hg, hcase⟩
            refine ⟨csg, hg, ?_⟩
            simp only [walkStep, hft, hl]
            exact hcase
      | none =>
        cases hrt : readTree store tfuel pc fp with
        | none =>
          have hft : flatTreeOf store tfuel fp ph = none := by
            simp only [flatTreeOf, hc, hrt]
          constructor
          · simp [scanParents, walkStep, hc, hcache, hrt, hft]
          · intro cs2 pend2 r h
            simp only [scanParents, hc, hcache, hrt] at h
            exact Option.noConfusion h
        | some pt =>
          have hft : flatTreeOf store tfuel fp ph = some pt := by
            simp only [flatTreeOf, hc, hrt]
          have hg1 : Grown store tfuel fp cs (cs ++ [(ph, ⟨pt, []⟩)]) :=
            grown_snoc hcache hft
          have hOk1 : CacheOk store tfuel fp (cs ++ [(ph, ⟨pt, []⟩)]) :=
            cacheOk_grown hOk hg1
          have hlph : alookup ph (cs ++ [(ph, (⟨pt, []⟩ : CommitState))]) =
              some ⟨pt, []⟩ := by
            rw [alookup_append_none _ hcache, alookup_cons, if_pos rfl]
          cases hl : alookup path pt with
          | some poid =>
            by_cases he : poid = pd.oid
            · subst he
              constructor
              · simp [scanParents, walkStep, hc, hcache, hrt, hl, hft]
              · intro cs2 pend2 r h
                simp only [scanParents, hc, hcache, hrt, hl] at h
                rw [if_true] at h
                injection h with h
                injection h with h1 h
                injection h with h2 h3
                refine ⟨cs ++ [(ph, ⟨pt, []⟩)], hg1, Or.inr ⟨ph, h3.symm, ?_,
                  h1.symm, h2.symm, ⟨pt, []⟩, hlph⟩⟩
                simp [walkStep, hft, hl]
            · have hrec := ih (cs ++ [(ph, ⟨pt, []⟩)]) pend hOk1
              constructor
              · simp only [scanParents, hc, hcache, hrt, hl, walkStep, hft]
                rw [if_neg he, if_neg he]
                exact hrec.1
              · intro cs2 pend2 r h
                simp only [scanParents, hc, hcache, hrt, hl] at h
                rw [if_neg he] at h
                rcases hrec.2 cs2 pend2 r h with ⟨csg, hg, hcase⟩
                refine ⟨csg, grown_trans hg1 hg, ?_⟩
                simp only [walkStep, hft, hl]
                rw [if_neg he]
                exact hcase
          | none =>
            have hrec := ih (cs ++ [(ph, ⟨pt, []⟩)]) pend hOk1
            constructor
            · simp only [scanParents, hc, hcache, hrt, hl, walkStep, hft]
              exact hrec.1
            · intro cs2 pend2 r h
              simp only [scanParents, hc, hcache, hrt, hl] at h
              rcases hrec.2 cs2 pend2 r h with ⟨csg, hg, hcase⟩
              refine ⟨csg, grown_trans hg1 hg, ?_⟩
              simp only [walkStep, hft, hl]
              exact hcase

/-! ### Invariants of the resolver state -/

/-- Held-entry soundness: every held entry sits at the commit recorded in
its `latest` field, carries the oid the start tree assigns to its path, and
its commit is reachable from the root along the walk for that path. -/
def HeldOk (store : Store) (tfuel : Nat) (fp : String) (root : Nat)
    (tree0 : List (String × Nat)) (cs : List (Nat × CommitState)) : Prop :=
  ∀ h cst path pd, alookup h cs = some cst → (path, pd) ∈ cst.held →
    pd.latest = h ∧ alookup path tree0 = some pd.oid ∧
    RSteps store tfuel fp path pd.oid root h

/-- Resolved-entry soundness: every resolved entry carries the start-tree
oid of its path and its `latest` field is the endpoint of the walk. -/
def ResOk (store : Store) (tfuel : Nat) (fp : String) (root : Nat)
    (tree0 : List (String × Nat)) (res : List (String × PathDict)) : Prop :=
  ∀ path pd, (path, pd) ∈ res →
    alookup path tree0 = some pd.oid ∧
    WalksTo store tfuel fp path pd.oid root pd.latest

/-- Every commit holding unresolved entries is still pending. -/
def PendHeld (cs : List (Nat × CommitState)) (pend : List Nat) : Prop :=
  ∀ h cst, alookup h cs = some cst → cst.held ≠ [] → h ∈ pend

theorem setAdd_mem (l : List Nat) (x : Nat) : x ∈ setAdd l x := by
  unfold setAdd
  by_cases h : x ∈ l
  · rw [if_pos h]; exact h
  · rw [if_neg h]; simp

theorem mem_setAdd_of_mem {l : List Nat} {y : Nat} (x : Nat) (h : y ∈ l) :
    y ∈ setAdd l x := by
  unfold setAdd
  by_cases h2 : x ∈ l
  · rw [if_pos h2]; exact h
  · rw [if_neg h2]; exact List.mem_append_left _ h

theorem subset_heldPaths {cs : List (Nat × CommitState)} {h : Nat} {st : CommitState}
    (hl : alookup h cs = some st) : ∀ p, p ∈ akeys st.held → p ∈ heldPaths cs := by
  induction cs with
  | nil => cases hl
  | cons q rest ih =>
    obtain ⟨a, cst⟩ := q
    intro p hp
    rw [heldPaths_cons]
    by_cases h2 : a = h
    · rw [alookup_cons, if_pos h2] at hl
      injection hl with hl
      subst hl
      exact List.mem_append_left _ hp
    · rw [alookup_cons, if_neg h2] at hl
      exact List.mem_append_right _ (ih hl p hp)

theorem heldOk_grown {store : Store} {tfuel : Nat} {fp : String} {root : Nat}
    {tree0 : List (String × Nat)} {cs csg : List (Nat × CommitState)}
    (hH : HeldOk store tfuel fp root tree0 cs) (g : Grown store tfuel fp cs csg) :
    HeldOk store tfuel fp root tree0 csg := by
  intro h cst path pd hl hm
  rcases g.new h cst hl with h2 | h2
  · exact hH h cst path pd h2 hm
  · rw [h2.1] at hm
    cases hm

theorem pendHeld_grown {store : Store} {tfuel : Nat} {fp : String}
    {cs csg : List (Nat × CommitState)} {pend : List Nat}
    (hP : PendHeld cs pend) (g : Grown store tfuel fp cs csg) : PendHeld csg pend := by
  intro h cst hl hne
  rcases g.new h cst hl with h2 | h2
  · exact hP h cst h2 hne
  · exact absurd h2.1 hne

theorem cacheOk_heldSet {store : Store} {tfuel : Nat} {fp : String}
    {cs : List (Nat × CommitState)} (hOk : CacheOk store tfuel fp cs)
    (ph : Nat) (path : String) (pd : PathDict) :
    CacheOk store tfuel fp (heldSet cs ph path pd) := by
  intro h cst hl
  by_cases h2 : h = ph
  · subst h2
    rw [alookup_heldSet_self] at hl
    cases hcs : alookup h cs with
    | none => rw [hcs] at hl; cases hl
    | some st =>
      rw [hcs] at hl
      injection hl with hl
      have := hOk h st hcs
      rw [← hl]
      exact this
  · rw [alookup_heldSet_ne _ _ _ _ _ h2] at hl
    exact hOk h cst hl

/-- Specification of one pass of the inner `working` loop: all resolver
invariants are preserved, the held/resolved multiset of paths is conserved,
and the pending set only grows. -/
theorem processHeld_spec (store : Store) (tfuel : Nat) (fp : String) (root : Nat)
    (tree0 : List (String × Nat)) (chex : Nat) (c : GitCommit)
    (hc : store.commits chex = some c) (hnd0 : (akeys tree0).Nodup) :
    ∀ w cs pend res cs2 pend2 res2,
      processHeld store tfuel fp c w cs pend res = some (cs2, pend2, res2) →
      CacheOk store tfuel fp cs →
      (akeys cs).Nodup →
      HeldOk store tfuel fp root tree0 cs →
      ResOk store tfuel fp root tree0 res →
      (∀ path pd, (path, pd) ∈ w → pd.latest = chex ∧
          alookup path tree0 = some pd.oid ∧
          RSteps store tfuel fp path pd.oid root chex) →
      List.Perm (akeys res ++ (heldPaths cs ++ akeys w)) (akeys tree0) →
      PendHeld cs pend →
      (CacheOk store tfuel fp cs2 ∧ (akeys cs2).Nodup ∧
        HeldOk store tfuel fp root tree0 cs2 ∧
        ResOk store tfuel fp root tree0 res2 ∧
        List.Perm (akeys res2 ++ heldPaths cs2) (akeys tree0) ∧
        PendHeld cs2 pend2 ∧
        (∀ x, x ∈ pend → x ∈ pend2)) := by
  intro w
  induction w with
  | nil =>
    intro cs pend res cs2 pend2 res2 hrun hOk hnd hH hR hw hperm hP
    rw [processHeld] at hrun
    injection hrun with hrun
    injection hrun with h1 hrun
    injection hrun with h2 h3
    subst h1; subst h2; subst h3
    refine ⟨hOk, hnd, hH, hR, ?_, hP, fun x hx => hx⟩
    have : akeys ([] : List (String × PathDict)) = [] := rfl
    rw [this, List.append_nil] at hperm
    exact hperm
  | cons hd w' ih =>
    obtain ⟨path, pd⟩ := hd
    intro cs pend res cs2 pend2 res2 hrun hOk hnd hH hR hw hperm hP
    have hwhd := hw path pd (List.mem_cons_self _ _)
    have hwrest : ∀ path' pd', (path', pd') ∈ w' → pd'.latest = chex ∧
        alookup path' tree0 = some pd'.oid ∧
        RSteps store tfuel fp path' pd'.oid root chex :=
      fun path' pd' hm => hw path' pd' (List.mem_cons_of_mem _ hm)
    rw [processHeld] at hrun
    cases hscan : scanParents store tfuel fp path pd c.parents cs pend with
    | none =>
      rw [hscan] at hrun
      exact Option.noConfusion hrun
    | some out =>
      obtain ⟨cs', pend', found⟩ := out
      rw [hscan] at hrun
      rcases (scanParents_spec store tfuel fp path pd c.parents cs pend hOk).2
          cs' pend' found hscan with ⟨csg, hg, hcase⟩
      -- the head path occurs exactly once in the tracked multiset
      have hndLHS : (akeys res ++ (heldPaths cs ++ (path :: akeys w'))).Nodup := by
        have e : akeys ((path, pd) :: w') = path :: akeys w' := rfl
        rw [e] at hperm
        exact hperm.symm.nodup hnd0
      have hpathcs : path ∉ heldPaths cs := by
        have h1 : (heldPaths cs ++ (path :: akeys w')).Nodup :=
          (List.nodup_append.mp hndLHS).2.1
        have h2 := List.disjoint_of_nodup_append h1
        intro hmem
        exact h2 hmem (List.mem_cons_self _ _)
      rcases hcase with ⟨hfound, hwstep, hcs', hpend'⟩ | ⟨ph, hfound, hwstep, hcs', hpend', stg, hstg⟩
      · -- no parent matched: the path resolves at chex
        subst hfound
        rw [hcs', hpend'] at hrun
        simp only at hrun
        have hOkg : CacheOk store tfuel fp csg := cacheOk_grown hOk hg
        have hndg : (akeys csg).Nodup := hg.nd hnd
        have hHg : HeldOk store tfuel fp root tree0 csg := heldOk_grown hH hg
        have hRg : ResOk store tfuel fp root tree0 (res ++ [(path, pd)]) := by
          intro path' pd' hm
          rcases List.mem_append.mp hm with hm | hm
          · exact hR path' pd' hm
          · simp at hm
            obtain ⟨rfl, rfl⟩ := hm
            refine ⟨hwhd.2.1, ?_⟩
            rw [hwhd.1]
            exact rsteps_walksTo hwhd.2.2 (WalksTo.done chex c hc hwstep)
        have hpermg : List.Perm (akeys (res ++ [(path, pd)]) ++ (heldPaths csg ++ akeys w'))
            (akeys tree0) := by
          rw [akeys_append, hg.hp]
          have e1 : akeys ([(path, pd)] : List (String × PathDict)) = [path] := rfl
          rw [e1]
          have e : akeys ((path, pd) :: w') = path :: akeys w' := rfl
          rw [e] at hperm
          refine List.Perm.trans ?_ hperm
          rw [List.append_assoc]
          refine List.Perm.append_left _ ?_
          rw [List.singleton_append]
          exact (List.perm_middle).symm
        have hPg : PendHeld csg pend := pendHeld_grown hP hg
        exact ih csg pend (res ++ [(path, pd)]) cs2 pend2 res2 hrun hOkg hndg hHg hRg
          hwrest hpermg hPg
      · -- first matching parent found: the path advances into ph
        subst hfound
        rw [hcs', hpend'] at hrun
        simp only at hrun
        have hOkg : CacheOk store tfuel fp csg := cacheOk_grown hOk hg
        have hndg : (akeys csg).Nodup := hg.nd hnd
        have hHg : HeldOk store tfuel fp root tree0 csg := heldOk_grown hH hg
        have hpathstg : path ∉ akeys stg.held := by
          intro hmem
          exact hpathcs (hg.hp ▸ subset_heldPaths hstg path hmem)
        have hRph : RSteps store tfuel fp path pd.oid root ph :=
          rsteps_snoc hwhd.2.2 hc hwstep
        have hOk2 : CacheOk store tfuel fp
            (heldSet csg ph path { pd with latest := ph }) :=
          cacheOk_heldSet hOkg ph path _
        have hnd2 : (akeys (heldSet csg ph path { pd with latest := ph })).Nodup := by
          rw [akeys_heldSet]
          exact hndg
        have hH2 : HeldOk store tfuel fp root tree0
            (heldSet csg ph path { pd with latest := ph }) := by
          intro h cst path' pd' hl hm
          by_cases h2 : h = ph
          · subst h2
            rw [alookup_heldSet_self, hstg] at hl
            injection hl with hl
            subst hl
            rcases mem_aset hm with hm2 | hm2
            · exact hHg h stg path' pd' hstg hm2
            · injection hm2 with e1 e2
              subst e1
              subst e2
              exact ⟨rfl, hwhd.2.1, hRph⟩
          · rw [alookup_heldSet_ne _ _ _ _ _ h2] at hl
            exact hHg h cst path' pd' hl hm
        have hperm2 : List.Perm (akeys res ++
            (heldPaths (heldSet csg ph path { pd with latest := ph }) ++ akeys w'))
            (akeys tree0) := by
          have hps : List.Perm (heldPaths (heldSet csg ph path { pd with latest := ph }))
              (path :: heldPaths cs) := by
            refine List.Perm.trans
              (heldPaths_heldSet_perm csg ph path _ hndg stg hstg hpathstg) ?_
            rw [hg.hp]
          have e : akeys ((path, pd) :: w') = path :: akeys w' := rfl
          rw [e] at hperm
          refine List.Perm.trans (List.Perm.append_left _
            (List.Perm.append_right _ hps)) ?_
          refine List.Perm.trans (List.Perm.append_left _ ?_) hperm
          rw [List.cons_append]
          exact List.Perm.trans (List.Perm.cons path (List.Perm.refl _))
            (List.perm_middle).symm
        have hP2 : PendHeld (heldSet csg ph path { pd with latest := ph })
            (setAdd pend ph) := by
          intro h cst hl hne
          by_cases h2 : h = ph
          · subst h2
            exact setAdd_mem pend h
          · rw [alookup_heldSet_ne _ _ _ _ _ h2] at hl
            rcases hg.new h cst hl with h3 | h3
            · exact mem_setAdd_of_mem _ (hP h cst h3 hne)
            · exact absurd h3.1 hne
        rcases ih _ _ res cs2 pend2 res2 hrun hOk2 hnd2 hH2 hR hwrest hperm2 hP2 with
          ⟨o1, o2, o3, o4, o5, o6, o7⟩
        exact ⟨o1, o2, o3, o4, o5, o6, fun x hx => o7 x (mem_setAdd_of_mem _ hx)⟩

/-! ### The loop invariant and the master characterization -/

/-- The resolver-state invariant, relative to the start commit `root` and
its flat tree `tree0`. -/
structure Inv (store : Store) (tfuel : Nat) (fp : String) (root : Nat)
    (tree0 : List (String × Nat)) (st : RState) : Prop where
  cacheOk : CacheOk store tfuel fp st.commits
  csNodup : (akeys st.commits).Nodup
  heldOk : HeldOk store tfuel fp root tree0 st.commits
  resOk : ResOk store tfuel fp root tree0 st.resolved
  perm : List.Perm (akeys st.resolved ++ heldPaths st.commits) (akeys tree0)
  pendHeld : PendHeld st.commits st.pending

theorem cacheOk_clearHeld {store : Store} {tfuel : Nat} {fp : String}
    {cs : List (Nat × CommitState)} (hOk : CacheOk store tfuel fp cs) (chex : Nat) :
    CacheOk store tfuel fp (clearHeld cs chex) := by
  intro h cst hl
  by_cases h2 : h = chex
  · subst h2
    rw [alookup_clearHeld_self] at hl
    cases hcs : alookup h cs with
    | none => rw [hcs] at hl; cases hl
    | some stx =>
      rw [hcs] at hl
      injection hl with hl
      rw [← hl]
      exact hOk h stx hcs
  · rw [alookup_clearHeld_ne _ _ _ h2] at hl
    exact hOk h cst hl

theorem heldOk_clearHeld {store : Store} {tfuel : Nat} {fp : String} {root : Nat}
    {tree0 : List (String × Nat)} {cs : List (Nat × CommitState)}
    (hH : HeldOk store tfuel fp root tree0 cs) (chex : Nat) :
    HeldOk store tfuel fp root tree0 (clearHeld cs chex) := by
  intro h cst path pd hl hm
  by_cases h2 : h = chex
  · subst h2
    rw [alookup_clearHeld_self] at hl
    cases hcs : alookup h cs with
    | none => rw [hcs] at hl; cases hl
    | some stx =>
      rw [hcs] at hl
      injection hl with hl
      rw [← hl] at hm
      cases hm
  · rw [alookup_clearHeld_ne _ _ _ h2] at hl
    exact hH h cst path pd hl hm

theorem heldPaths_eq_nil {cs : List (Nat × CommitState)} (hnd : (akeys cs).Nodup)
    (h : ∀ hx cst, alookup hx cs = some cst → cst.held = []) : heldPaths cs = [] := by
  induction cs with
  | nil => rfl
  | cons p rest ih =>
    obtain ⟨a, cst⟩ := p
    have hnd2 := List.nodup_cons.mp (show (a :: akeys rest).Nodup from hnd)
    have h1 : cst.held = [] := h a cst (by rw [alookup_cons, if_pos rfl])
    rw [heldPaths_cons, h1]
    have h2 : ∀ hx cst2, alookup hx rest = some cst2 → cst2.held = [] := by
      intro hx cst2 hl
      refine h hx cst2 ?_
      have hxmem : hx ∈ akeys rest := (alookup_isSome hx rest).mp (by rw [hl]; rfl)
      have hne : a ≠ hx := fun e => hnd2.1 (e ▸ hxmem)
      rw [alookup_cons, if_neg hne]
      exact hl
    rw [ih hnd2.2 h2]
    rfl

/-- Partial correctness of the frontier loop: a successful run returns a
resolved list whose paths are exactly the start-tree paths and whose
entries are walk-sound. -/
theorem runLoop_spec (store : Store) (tfuel : Nat) (fp : String)
    (sched : List Nat → Nat) (root : Nat) (tree0 : List (String × Nat))
    (hnd0 : (akeys tree0).Nodup) :
    ∀ fuel st res, runLoop store tfuel fp sched fuel st = some res →
      Inv store tfuel fp root tree0 st →
      (ResOk store tfuel fp root tree0 res ∧
        List.Perm (akeys res) (akeys tree0)) := by
  intro fuel
  induction fuel with
  | zero =>
    intro st res hrun hinv
    rw [runLoop] at hrun
    cases hp : st.pending with
    | nil =>
      rw [hp] at hrun
      injection hrun with hrun
      subst hrun
      refine ⟨hinv.resOk, ?_⟩
      have hheld : heldPaths st.commits = [] := by
        refine heldPaths_eq_nil hinv.csNodup ?_
        intro hx cst hl
        by_contra hne
        have := hinv.pendHeld hx cst hl hne
        rw [hp] at this
        cases this
      have hperm := hinv.perm
      rw [hheld, List.append_nil] at hperm
      exact hperm
    | cons p ps =>
      rw [hp] at hrun
      exact Option.noConfusion hrun
  | succ fuel' ih =>
    intro st res hrun hinv
    cases hp : st.pending with
    | nil =>
      rw [runLoop, hp] at hrun
      injection hrun with hrun
      subst hrun
      refine ⟨hinv.resOk, ?_⟩
      have hheld : heldPaths st.commits = [] := by
        refine heldPaths_eq_nil hinv.csNodup ?_
        intro hx cst hl
        by_contra hne
        have := hinv.pendHeld hx cst hl hne
        rw [hp] at this
        cases this
      have hperm := hinv.perm
      rw [hheld, List.append_nil] at hperm
      exact hperm
    | cons p ps =>
      rw [runLoop, hp] at hrun
      simp only at hrun
      cases hc : store.commits (sched (p :: ps)) with
      | none =>
        rw [hc] at hrun
        exact Option.noConfusion hrun
      | some c =>
        rw [hc] at hrun
        simp only at hrun
        cases hcst : alookup (sched (p :: ps)) st.commits with
        | none =>
          rw [hcst] at hrun
          exact Option.noConfusion hrun
        | some cst =>
          rw [hcst] at hrun
          simp only at hrun
          cases hph : processHeld store tfuel fp c cst.held
              (clearHeld st.commits (sched (p :: ps)))
              ((p :: ps).erase (sched (p :: ps))) st.resolved with
          | none =>
            rw [hph] at hrun
            exact Option.noConfusion hrun
          | some out =>
            obtain ⟨cs', pend', res'⟩ := out
            rw [hph] at hrun
            simp only at hrun
            -- invariants for the state handed to processHeld
            have hOk0 : CacheOk store tfuel fp
                (clearHeld st.commits (sched (p :: ps))) :=
              cacheOk_clearHeld hinv.cacheOk _
            have hnd0c : (akeys (clearHeld st.commits (sched (p :: ps)))).Nodup := by
              rw [akeys_clearHeld]
              exact hinv.csNodup
            have hH0 : HeldOk store tfuel fp root tree0
                (clearHeld st.commits (sched (p :: ps))) :=
              heldOk_clearHeld hinv.heldOk _
            have hw0 : ∀ path pd, (path, pd) ∈ cst.held →
                pd.latest = sched (p :: ps) ∧
                alookup path tree0 = some pd.oid ∧
                RSteps store tfuel fp path pd.oid root (sched (p :: ps)) :=
              fun path pd hm => hinv.heldOk _ cst path pd hcst hm
            have hperm0 : List.Perm (akeys st.resolved ++
                (heldPaths (clearHeld st.commits (sched (p :: ps))) ++ akeys cst.held))
                (akeys tree0) := by
              refine List.Perm.trans (List.Perm.append_left _ ?_)
                (List.Perm.trans (List.Perm.append_left _
                  (heldPaths_clearHeld_perm st.commits _ hinv.csNodup cst hcst).symm) ?_)
              · exact List.perm_append_comm
              · exact hinv.perm
            have hP0 : PendHeld (clearHeld st.commits (sched (p :: ps)))
                ((p :: ps).erase (sched (p :: ps))) := by
              intro h cst2 hl hne
              by_cases h2 : h = sched (p :: ps)
              · rw [h2, alookup_clearHeld_self] at hl
                cases hcs2 : alookup (sched (p :: ps)) st.commits with
                | none => rw [hcs2] at hl; cases hl
                | some stx =>
                  rw [hcs2] at hl
                  injection hl with hl
                  rw [← hl] at hne
                  exact absurd rfl hne
              · rw [alookup_clearHeld_ne _ _ _ h2] at hl
                have := hinv.pendHeld h cst2 hl hne
                rw [hp] at this
                exact (List.mem_erase_of_ne h2).mpr this
            rcases processHeld_spec store tfuel fp root tree0 (sched (p :: ps)) c hc
                hnd0 cst.held _ _ st.resolved cs' pend' res' hph hOk0 hnd0c hH0
                hinv.resOk hw0 hperm0 hP0 with ⟨o1, o2, o3, o4, o5, o6, o7⟩
            exact ih ⟨cs', res', pend'⟩ res hrun ⟨o1, o2, o3, o4, o5, o6⟩

/-- The state seeded by the resolver satisfies the loop invariant. -/
theorem initial_inv {store : Store} {tfuel : Nat} {fp : String} {rootHex : Nat}
    {rc : GitCommit} {tree0 : List (String × Nat)}
    (hrc : store.commits rootHex = some rc)
    (hrt : readTree store tfuel rc fp = some tree0) :
    Inv store tfuel fp rootHex tree0
      ⟨[(rootHex, ⟨tree0, tree0.map (fun p => (p.1, PathDict.mk p.2 rootHex))⟩)],
        [], [rootHex]⟩ := by
  have hnd0 : (akeys tree0).Nodup := readTree_nodup hrt
  have hft : flatTreeOf store tfuel fp rootHex = some tree0 := by
    simp only [flatTreeOf, hrc, hrt]
  refine ⟨?_, ?_, ?_, ?_, ?_, ?_⟩
  · intro hx cstx hl
    rw [alookup_cons] at hl
    by_cases h2 : rootHex = hx
    · rw [if_pos h2] at hl
      injection hl with hl
      rw [← hl, ← h2]
      exact hft
    · rw [if_neg h2] at hl
      cases hl
  · simp [akeys]
  · intro hx cstx path pd hl hm
    rw [alookup_cons] at hl
    by_cases h2 : rootHex = hx
    · rw [if_pos h2] at hl
      injection hl with hl
      rw [← hl] at hm
      simp only at hm
      rcases List.mem_map.mp hm with ⟨q, hq, he⟩
      injection he with he1 he2
      subst he1
      rw [← he2]
      refine ⟨h2, ?_, ?_⟩
      · exact alookup_of_mem_nodup hnd0 (by
          have : (q.1, q.2) = q := rfl
          rw [this]
          exact hq)
      · rw [← h2]
        exact RSteps.refl _
    · rw [if_neg h2] at hl
      cases hl
  · intro path pd hm
    cases hm
  · have e1 : akeys ([] : List (String × PathDict)) = [] := rfl
    rw [e1, List.nil_append]
    have e2 : heldPaths [(rootHex,
        (⟨tree0, tree0.map (fun p => (p.1, PathDict.mk p.2 rootHex))⟩ :
          CommitState))] =
        akeys (tree0.map (fun p => (p.1, PathDict.mk p.2 rootHex))) := by
      rw [heldPaths_cons, heldPaths_nil, List.append_nil]
    rw [e2]
    have e3 : akeys (tree0.map (fun p => (p.1, PathDict.mk p.2 rootHex))) =
        akeys tree0 := by
      simp [akeys, List.map_map]
    rw [e3]
  · intro hx cstx hl hne
    rw [alookup_cons] at hl
    by_cases h2 : rootHex = hx
    · rw [h2]
      simp
    · rw [if_neg h2] at hl
      cases hl
/-- Master characterization of a successful resolver run: the root commit
and its flat tree exist, the result paths are a permutation of the flat
tree paths, and every result entry is walk-sound. -/
theorem run_characterization {store : Store} {tfuel lfuel : Nat}
    {sched : List Nat → Nat} {rootHex : Nat} {fp : String}
    {res : List (String × PathDict)}
    (h : get_latest_changing_commits_for_tree store tfuel lfuel sched rootHex fp
      = some res) :
    ∃ rc tree0, store.commits rootHex = some rc ∧
      readTree store tfuel rc fp = some tree0 ∧
      List.Perm (akeys res) (akeys tree0) ∧
      ResOk store tfuel fp rootHex tree0 res := by
  unfold get_latest_changing_commits_for_tree at h
  cases hrc : store.commits rootHex with
  | none => rw [hrc] at h; cases h
  | some rc =>
    rw [hrc] at h
    simp only at h
    cases hrt : readTree store tfuel rc fp with
    | none => rw [hrt] at h; cases h
    | some tree0 =>
      rw [hrt] at h
      simp only at h
      have hnd0 : (akeys tree0).Nodup := readTree_nodup hrt
      have hinv := initial_inv hrc hrt
      rcases runLoop_spec store tfuel fp sched rootHex tree0 hnd0 lfuel _ res h hinv
        with ⟨h1, h2⟩
      exact ⟨rc, tree0, rfl, hrt, h2, h1⟩

/-! ### Endpoint lemmas -/

/-- The content at the walk endpoint: if the walk origin flat tree maps the
path to the oid, so does the endpoint flat tree. -/
theorem walksTo_flat {store : Store} {tfuel : Nat} {fp path : String} {oid : Nat}
    {c e : Nat} (h : WalksTo store tfuel fp path oid c e)
    (hc : ∃ pt, flatTreeOf store tfuel fp c = some pt ∧ alookup path pt = some oid) :
    ∃ pt, flatTreeOf store tfuel fp e = some pt ∧ alookup path pt = some oid := by
  induction h with
  | done c gc hcg hw => exact hc
  | step c gc p e hcg hw hrest ih => exact ih (walkStep_some_flat hw)

/-! ### Claim theorems -/

/-- C1: completeness of the resolver.  Whenever
`get_latest_changing_commits_for_tree` returns normally, the key set of the
returned result map equals exactly the path set of the flattened tree of
the start commit under the filter path: every such path appears exactly
once in the result, and no other path appears. -/
theorem resolver_completeness {store : Store} {tfuel lfuel : Nat}
    {sched : List Nat → Nat} {rootHex : Nat} {fp : String}
    {res : List (String × PathDict)}
    (h : get_latest_changing_commits_for_tree store tfuel lfuel sched rootHex fp
      = some res) :
    ∃ rc tree0, store.commits rootHex = some rc ∧
      readTree store tfuel rc fp = some tree0 ∧
      (∀ path, path ∈ akeys res ↔ path ∈ akeys tree0) ∧ (akeys res).Nodup := by
  rcases run_characterization h with ⟨rc, tree0, hrc, hrt, hperm, hres⟩
  exact ⟨rc, tree0, hrc, hrt, fun path => hperm.mem_iff,
    hperm.symm.nodup (readTree_nodup hrt)⟩

/-- C7: determinism across runs and scheduling.  Two successful invocations
with the same store, start commit, and filter path produce identical result
maps, regardless of the order in which pending commits are popped (the
scheduler arguments) and of the loop fuel. -/
theorem resolver_deterministic {store : Store} {tfuel lfuel1 lfuel2 : Nat}
    {sched1 sched2 : List Nat → Nat} {rootHex : Nat} {fp : String}
    {res1 res2 : List (String × PathDict)}
    (h1 : get_latest_changing_commits_for_tree store tfuel lfuel1 sched1 rootHex fp
      = some res1)
    (h2 : get_latest_changing_commits_for_tree store tfuel lfuel2 sched2 rootHex fp
      = some res2) :
    ∀ path, alookup path res1 = alookup path res2 := by
  rcases run_characterization h1 with ⟨rc1, tree1, hrc1, hrt1, hperm1, hres1⟩
  rcases run_characterization h2 with ⟨rc2, tree2, hrc2, hrt2, hperm2, hres2⟩
  rw [hrc1] at hrc2
  injection hrc2 with hrc2
  subst hrc2
  rw [hrt1] at hrt2
  injection hrt2 with hrt2
  subst hrt2
  intro path
  by_cases hmem : path ∈ akeys tree1
  · have hm1 : path ∈ akeys res1 := hperm1.mem_iff.mpr hmem
    have hm2 : path ∈ akeys res2 := hperm2.mem_iff.mpr hmem
    rcases Option.isSome_iff_exists.mp ((alookup_isSome path res1).mpr hm1)
      with ⟨pd1, hpd1⟩
    rcases Option.isSome_iff_exists.mp ((alookup_isSome path res2).mpr hm2)
      with ⟨pd2, hpd2⟩
    rcases hres1 path pd1 (alookup_mem hpd1) with ⟨ho1, hw1⟩
    rcases hres2 path pd2 (alookup_mem hpd2) with ⟨ho2, hw2⟩
    have hoid : pd1.oid = pd2.oid := by
      rw [ho1] at ho2
      injection ho2
    have hlatest : pd1.latest = pd2.latest := by
      rw [hoid] at hw1
      exact walksTo_unique hw1 hw2
    have hpd : pd1 = pd2 := by
      cases pd1
      cases pd2
      simp only at hoid hlatest
      rw [hoid, hlatest]
    rw [hpd1, hpd2, hpd]
  · have hm1 : path ∉ akeys res1 := fun hx => hmem (hperm1.mem_iff.mp hx)
    have hm2 : path ∉ akeys res2 := fun hx => hmem (hperm2.mem_iff.mp hx)
    rw [(alookup_eq_none path res1).mpr hm1, (alookup_eq_none path res2).mpr hm2]

/-- C10: result-provenance invariant.  Every entry of a successful result
carries exactly the content id the start tree assigns to its path, and the
flat tree of the reported latest commit (under the same filter) maps the
path to that same content id. -/
theorem result_provenance {store : Store} {tfuel lfuel : Nat}
    {sched : List Nat → Nat} {rootHex : Nat} {fp : String}
    {res : List (String × PathDict)}
    (h : get_latest_changing_commits_for_tree store tfuel lfuel sched rootHex fp
      = some res) :
    ∃ rc tree0, store.commits rootHex = some rc ∧
      readTree store tfuel rc fp = some tree0 ∧
      ∀ path pd, alookup path res = some pd →
        alookup path tree0 = some pd.oid ∧
        ∃ pt, flatTreeOf store tfuel fp pd.latest = some pt ∧
          alookup path pt = some pd.oid := by
  rcases run_characterization h with ⟨rc, tree0, hrc, hrt, hperm, hres⟩
  refine ⟨rc, tree0, hrc, hrt, fun path pd hpd => ?_⟩
  rcases hres path pd (alookup_mem hpd) with ⟨ho, hw⟩
  refine ⟨ho, ?_⟩
  have hft : flatTreeOf store tfuel fp rootHex = some tree0 := by
    simp only [flatTreeOf, hrc, hrt]
  exact walksTo_flat hw ⟨tree0, hft, ho⟩

/-! ### Concrete witness repositories -/

/-- Trees of the linear three-commit scenario: commit A (id 100) adds
`x.txt` = blob 1; B (id 101) adds `y.txt` = blob 2; C (id 102) modifies
`y.txt` to blob 3. -/
def linTrees : Nat → Option GitTree
  | 10 => some ⟨[⟨"x.txt", 1, false⟩]⟩
  | 11 => some ⟨[⟨"x.txt", 1, false⟩, ⟨"y.txt", 2, false⟩]⟩
  | 12 => some ⟨[⟨"x.txt", 1, false⟩, ⟨"y.txt", 3, false⟩]⟩
  | _ => none

/-- Commits of the linear scenario: 100 (A, root) ← 101 (B) ← 102 (C). -/
def linCommits : Nat → Option GitCommit
  | 100 => some ⟨10, []⟩
  | 101 => some ⟨11, [100]⟩
  | 102 => some ⟨12, [101]⟩
  | _ => none

/-- The linear three-commit store. -/
def storeLin : Store := ⟨linTrees, linCommits⟩

/-- A deterministic pop strategy: take the head of the pending list. -/
def headSched : List Nat → Nat := fun l => l.headD 0

/-- The result of resolving the linear scenario from C with no filter. -/
def resLin : List (String × PathDict) := [("y.txt", ⟨3, 102⟩), ("x.txt", ⟨1, 100⟩)]

theorem runLin_eval :
    get_latest_changing_commits_for_tree storeLin 5 10 headSched 102 "" =
      some resLin := by
  decide

/-- Witness for C1 at the linear scenario. -/
theorem resolver_completeness_witness :
    ∃ rc tree0, storeLin.commits 102 = some rc ∧
      readTree storeLin 5 rc "" = some tree0 ∧
      (∀ path, path ∈ akeys resLin ↔ path ∈ akeys tree0) ∧ (akeys resLin).Nodup :=
  resolver_completeness runLin_eval

/-- C4: merge first-parent bias.  At a merge commit `M` with declared
parents `P1, P2, ...` where the flat trees of both `P1` and `P2` map path
`f` to the oid it has at the start commit, the walk step advances into
`P1`; the outcome is independent of everything after `P1` in the parent
list (`P2` is never consulted); the walk from `M` factors through `P1`, so
the reported latest commit is the one reached via the chain of `P1`; and
the operational scan `scanParents` advances the held entry of `f` into
`P1` with first-parent tie-breaking. -/
theorem merge_first_parent_bias {store : Store} {tfuel : Nat} {fp f : String}
    {M P1 P2 : Nat} {prest : List Nat} {gc : GitCommit} {oid : Nat}
    {pt1 pt2 : List (String × Nat)}
    (hM : store.commits M = some gc)
    (hpar : gc.parents = P1 :: P2 :: prest)
    (h1 : flatTreeOf store tfuel fp P1 = some pt1)
    (hf1 : alookup f pt1 = some oid)
    (h2 : flatTreeOf store tfuel fp P2 = some pt2)
    (hf2 : alookup f pt2 = some oid) :
    walkStep store tfuel fp f oid gc.parents = some (some P1) ∧
    (∀ tail, walkStep store tfuel fp f oid (P1 :: tail) = some (some P1)) ∧
    (∀ e, WalksTo store tfuel fp f oid M e ↔ WalksTo store tfuel fp f oid P1 e) ∧
    (∀ pd cs pend tail, pd.oid = oid → CacheOk store tfuel fp cs →
      ∃ cs2 pend2, scanParents store tfuel fp f pd (P1 :: tail) cs pend =
        some (cs2, pend2, some { pd with latest := P1 })) := by
  have hstep : ∀ tail, walkStep store tfuel fp f oid (P1 :: tail) = some (some P1) := by
    intro tail
    simp only [walkStep, h1, hf1]
    rw [if_true]
  have hfirst : walkStep store tfuel fp f oid gc.parents = some (some P1) := by
    rw [hpar]
    exact hstep (P2 :: prest)
  refine ⟨hfirst, hstep, ?_, ?_⟩
  · intro e
    constructor
    · intro hw
      cases hw with
      | done c gc2 hcg hwn =>
        rw [hM] at hcg
        injection hcg with hcg
        subst hcg
        rw [hfirst] at hwn
        cases hwn
      | step c gc2 p e hcg hws hrest =>
        rw [hM] at hcg
        injection hcg with hcg
        subst hcg
        rw [hfirst] at hws
        injection hws with hws
        injection hws with hws
        subst hws
        exact hrest
    · intro hw
      exact WalksTo.step M gc P1 e hM hfirst hw
  · intro pd cs pend tail hpd hOk
    have hws : walkStep store tfuel fp f pd.oid (P1 :: tail) = some (some P1) := by
      rw [hpd]
      exact hstep tail
    cases hout : scanParents store tfuel fp f pd (P1 :: tail) cs pend with
    | none =>
      have := (scanParents_spec store tfuel fp f pd (P1 :: tail) cs pend hOk).1.mp hout
      rw [hws] at this
      cases this
    | some out =>
      obtain ⟨cs2, pend2, r⟩ := out
      rcases (scanParents_spec store tfuel fp f pd (P1 :: tail) cs pend hOk).2
        cs2 pend2 r hout with ⟨csg, hg, hcase⟩
      rcases hcase with ⟨hr, hwn, _, _⟩ | ⟨ph, hr, hwn, _, _, _⟩
      · rw [hws] at hwn
        injection hwn with hwn
        cases hwn
      · rw [hws] at hwn
        injection hwn with hwn
        injection hwn with hwn
        subst hwn
        exact ⟨cs2, pend2, by rw [hr]⟩

/-- A linear chain of commits: each element of the list has exactly the
next element as its only parent, and the final element is a root commit
with no parents. -/
inductive LinChain (store : Store) : List Nat → Prop
  | last (c : Nat) (gc : GitCommit) :
      store.commits c = some gc → gc.parents = [] → LinChain store [c]
  | cons (c : Nat) (gc : GitCommit) (p : Nat) (l : List Nat) :
      store.commits c = some gc → gc.parents = [p] →
      LinChain store (p :: l) → LinChain store (c :: p :: l)

/-- On a linear chain whose upper segment all records the path at one oid
and whose following commit (if any) does not, the walk from the head of
the chain ends exactly at the last commit of the upper segment. -/
theorem chain_walk {store : Store} {tfuel : Nat} {fp f : String} {oid : Nat} :
    ∀ (upper lower : List Nat) (c0 : Nat),
      LinChain store (upper ++ lower) →
      upper.head? = some c0 →
      (∀ c ∈ upper, ∃ pt, flatTreeOf store tfuel fp c = some pt ∧
        alookup f pt = some oid) →
      (∀ cl, lower.head? = some cl → ∃ pt, flatTreeOf store tfuel fp cl = some pt ∧
        ¬ alookup f pt = some oid) →
      ∃ ck, upper.getLast? = some ck ∧ WalksTo store tfuel fp f oid c0 ck := by
  intro upper
  induction upper with
  | nil =>
    intro lower c0 hchain hc0 hcontent hlower
    cases hc0
  | cons c up' ih =>
    intro lower c0 hchain hc0 hcontent hlower
    injection hc0 with hc0
    subst hc0
    cases up' with
    | nil =>
      -- the chain head is also the last upper commit
      refine ⟨c, rfl, ?_⟩
      cases lower with
      | nil =>
        cases hchain with
        | last _ gc hcg hpar =>
          refine WalksTo.done c gc hcg ?_
          rw [hpar]
          rfl
      | cons cl lt =>
        cases hchain with
        | cons _ gc _ _ hcg hpar hrest =>
          rcases hlower cl rfl with ⟨pt, hpt, hne⟩
          refine WalksTo.done c gc hcg ?_
          rw [hpar]
          cases hlk : alookup f pt with
          | none => simp [walkStep, hpt, hlk]
          | some o =>
            have hno : ¬ o = oid := fun e => hne (by rw [hlk, e])
            simp [walkStep, hpt, hlk, hno]
    | cons c' up'' =>
      cases hchain with
      | cons _ gc _ _ hcg hpar hrest =>
        have hcontent' : ∀ cx ∈ c' :: up'', ∃ pt,
            flatTreeOf store tfuel fp cx = some pt ∧ alookup f pt = some oid :=
          fun cx hm => hcontent cx (List.mem_cons_of_mem _ hm)
        rcases ih lower c' hrest rfl hcontent' hlower with ⟨ck, hck, hwalk⟩
        refine ⟨ck, ?_, ?_⟩
        · rw [List.getLast?_cons_cons]
          exact hck
        · rcases hcontent c' (List.mem_cons_of_mem _ (List.mem_cons_self _ _)) with
            ⟨pt', hpt', hlk'⟩
          refine WalksTo.step c gc c' ck hcg ?_ hwalk
          rw [hpar]
          simp [walkStep, hpt', hlk']

/-- C5: linear history determinism.  On a linear chain `upper ++ lower`
starting at head commit `c0`, where the file `f` has the same content id
`oid` throughout `upper` (ending at `ck`) and a different or absent content
at the first commit of `lower`, a successful resolution from `c0` maps `f`
to content `oid` with latest commit `ck`. -/
theorem linear_history_determinism {store : Store} {tfuel lfuel : Nat}
    {sched : List Nat → Nat} {fp f : String} {oid : Nat}
    {upper lower : List Nat} {c0 ck : Nat} {res : List (String × PathDict)}
    (hchain : LinChain store (upper ++ lower))
    (hc0 : upper.head? = some c0)
    (hck : upper.getLast? = some ck)
    (hcontent : ∀ c ∈ upper, ∃ pt, flatTreeOf store tfuel fp c = some pt ∧
      alookup f pt = some oid)
    (hlower : ∀ cl, lower.head? = some cl → ∃ pt,
      flatTreeOf store tfuel fp cl = some pt ∧ ¬ alookup f pt = some oid)
    (hrun : get_latest_changing_commits_for_tree store tfuel lfuel sched c0 fp
      = some res) :
    alookup f res = some ⟨oid, ck⟩ := by
  rcases chain_walk upper lower c0 hchain hc0 hcontent hlower with ⟨ck', hck', hwalk⟩
  rw [hck] at hck'
  injection hck' with hck'
  subst hck'
  rcases run_characterization hrun with ⟨rc, tree0, hrc, hrt, hperm, hres⟩
  have hc0mem : c0 ∈ upper := by
    cases upper with
    | nil => cases hc0
    | cons a l =>
      injection hc0 with hc0
      rw [hc0]
      exact List.mem_cons_self _ _
  rcases hcontent c0 hc0mem with ⟨pt0, hpt0, hlk0⟩
  have htree0 : tree0 = pt0 := by
    simp only [flatTreeOf, hrc, hrt, Option.some.injEq] at hpt0
    exact hpt0
  have hf0 : alookup f tree0 = some oid := by
    rw [htree0]
    exact hlk0
  have hmem : f ∈ akeys res :=
    hperm.mem_iff.mpr (mem_akeys_of_alookup hf0)
  rcases Option.isSome_iff_exists.mp ((alookup_isSome f res).mpr hmem) with ⟨pd, hpd⟩
  rcases hres f pd (alookup_mem hpd) with ⟨ho, hw⟩
  have hoid : pd.oid = oid := by
    rw [hf0] at ho
    injection ho with h
    exact h.symm
  rw [hoid] at hw
  have hlatest : pd.latest = ck := walksTo_unique hw hwalk
  rw [hpd]
  cases pd
  simp only at hoid hlatest
  rw [hoid, hlatest]

/-- Trees of the merge scenario: the merge commit and both of its parents
record `f.txt` with the same blob 7; the first parent also has an ancestor
with different content. -/
def mergeTrees : Nat → Option GitTree
  | 20 => some ⟨[⟨"f.txt", 7, false⟩]⟩
  | 21 => some ⟨[⟨"f.txt", 7, false⟩]⟩
  | 22 => some ⟨[⟨"f.txt", 7, false⟩]⟩
  | _ => none

/-- Commits of the merge scenario: merge 200 with parents 201 (first) and
202 (second), both roots. -/
def mergeCommits : Nat → Option GitCommit
  | 200 => some ⟨20, [201, 202]⟩
  | 201 => some ⟨21, []⟩
  | 202 => some ⟨22, []⟩
  | _ => none

/-- The merge-scenario store. -/
def storeMerge : Store := ⟨mergeTrees, mergeCommits⟩

/-- Trees of the diamond scenario, where the two files advance into
different parents of the merge, making several commits pending at once. -/
def diaTrees : Nat → Option GitTree
  | 30 => some ⟨[⟨"a.txt", 1, false⟩, ⟨"b.txt", 2, false⟩]⟩
  | 31 => some ⟨[⟨"a.txt", 1, false⟩, ⟨"b.txt", 5, false⟩]⟩
  | 32 => some ⟨[⟨"a.txt", 6, false⟩, ⟨"b.txt", 2, false⟩]⟩
  | 33 => some ⟨[⟨"a.txt", 4, false⟩, ⟨"b.txt", 9, false⟩]⟩
  | _ => none

/-- Commits of the diamond scenario: 300 merges 301 and 302, which share
the root 303. -/
def diaCommits : Nat → Option GitCommit
  | 300 => some ⟨30, [301, 302]⟩
  | 301 => some ⟨31, [303]⟩
  | 302 => some ⟨32, [303]⟩
  | 303 => some ⟨33, []⟩
  | _ => none

/-- The diamond-scenario store. -/
def storeDia : Store := ⟨diaTrees, diaCommits⟩

/-- A second pop strategy, taking the last pending commit. -/
def tailSched : List Nat → Nat := fun l => l.getLastD 0

/-- The diamond result under the head-first pop strategy. -/
def resDiaHead : List (String × PathDict) := [("a.txt", ⟨1, 301⟩), ("b.txt", ⟨2, 302⟩)]

/-- The diamond result under the last-first pop strategy: a different list
order, but the same map. -/
def resDiaTail : List (String × PathDict) := [("b.txt", ⟨2, 302⟩), ("a.txt", ⟨1, 301⟩)]

theorem runDiaHead_eval :
    get_latest_changing_commits_for_tree storeDia 5 10 headSched 300 "" =
      some resDiaHead := by
  decide

theorem runDiaTail_eval :
    get_latest_changing_commits_for_tree storeDia 5 10 tailSched 300 "" =
      some resDiaTail := by
  decide

/-- Witness for C7 at the diamond scenario: two schedulers that pop the
pending set in different orders produce the same result map (here sampled
at both paths), although the underlying lists differ. -/
theorem resolver_deterministic_witness :
    alookup "a.txt" resDiaHead = alookup "a.txt" resDiaTail ∧
    alookup "b.txt" resDiaHead = alookup "b.txt" resDiaTail :=
  ⟨resolver_deterministic runDiaHead_eval runDiaTail_eval "a.txt",
   resolver_deterministic runDiaHead_eval runDiaTail_eval "b.txt"⟩

/-- Witness for C10 at the linear scenario. -/
theorem result_provenance_witness :
    ∃ rc tree0, storeLin.commits 102 = some rc ∧
      readTree storeLin 5 rc "" = some tree0 ∧
      ∀ path pd, alookup path resLin = some pd →
        alookup path tree0 = some pd.oid ∧
        ∃ pt, flatTreeOf storeLin 5 "" pd.latest = some pt ∧
          alookup path pt = some pd.oid :=
  result_provenance runLin_eval

/-- Witness for C4 at the merge scenario: the walk step at the merge
commit 200 advances into the first parent 201 although the second parent
202 carries identical content. -/
theorem merge_first_parent_bias_witness :
    walkStep storeMerge 5 "" "f.txt" 7 (GitCommit.mk 20 [201, 202]).parents
      = some (some 201) :=
  (@merge_first_parent_bias storeMerge 5 "" "f.txt" 200 201 202 []
    ⟨20, [201, 202]⟩ 7 [("f.txt", 7)] [("f.txt", 7)]
    (by decide) (by decide) (by decide) (by decide) (by decide) (by decide)).1

/-- The linear scenario really is a linear chain. -/
theorem linChainLin : LinChain storeLin [102, 101, 100] :=
  LinChain.cons 102 ⟨12, [101]⟩ 101 [100] rfl rfl
    (LinChain.cons 101 ⟨11, [100]⟩ 100 [] rfl rfl
      (LinChain.last 100 ⟨10, []⟩ rfl rfl))

/-- Witness for C5 at the linear scenario: `x.txt` (added by root commit A
= 100, untouched since) resolves to latest commit 100 with content 1. -/
theorem linear_history_determinism_witness :
    alookup "x.txt" resLin = some ⟨1, 100⟩ :=
  @linear_history_determinism storeLin 5 10 headSched "" "x.txt" 1
    [102, 101, 100] [] 102 100 resLin
    linChainLin (by decide) (by decide)
    (by
      intro c hc
      fin_cases hc
      · exact ⟨[("x.txt", 1), ("y.txt", 3)], rfl, rfl⟩
      · exact ⟨[("x.txt", 1), ("y.txt", 2)], rfl, rfl⟩
      · exact ⟨[("x.txt", 1)], rfl, rfl⟩)
    (by
      intro cl h
      cases h)
    runLin_eval

/-! ### The flattener records in-scope entries without recursing (C2, C3) -/

/-- Trees of the nested-directory scenario: the root tree holds directory
`d` (tree 20) and file `top.txt`; `d` holds directory `s` (tree 21) and
file `a.txt`; `s` holds file `x.txt`. -/
def subTrees : Nat → Option GitTree
  | 10 => some ⟨[⟨"d", 20, true⟩, ⟨"top.txt", 5, false⟩]⟩
  | 20 => some ⟨[⟨"s", 21, true⟩, ⟨"a.txt", 30, false⟩]⟩
  | 21 => some ⟨[⟨"x.txt", 31, false⟩]⟩
  | _ => none

/-- The nested-directory store (no commits needed). -/
def storeSub : Store := ⟨subTrees, fun _ => none⟩

theorem pathJoin_empty (name : String) : pathJoin "" name = name := if_pos rfl

/-- With an empty filter path, the flattener records each entry of the
current list at its name and never descends: the result is a fold of dict
updates over the top-level entries only. -/
theorem readTreeEntries_no_filter (store : Store) :
    ∀ (entries : List TreeEntry) (fuel : Nat) (acc : List (String × Nat)),
      entries.length ≤ fuel →
      readTreeEntries store "" fuel entries "" acc =
        some (entries.foldl (fun acc2 e => aset e.name e.oid acc2) acc) := by
  intro entries
  induction entries with
  | nil =>
    intro fuel acc hfuel
    rw [readTreeEntries]
    rfl
  | cons e rest ih =>
    intro fuel acc hfuel
    cases fuel with
    | zero => cases hfuel
    | succ fuel' =>
      rw [readTreeEntries.eq_def]
      dsimp only
      rw [if_neg (by
        intro hcond
        exact hcond.1 rfl)]
      rw [if_pos (Or.inl rfl)]
      rw [pathJoin_empty]
      rw [List.foldl_cons]
      exact ih fuel' (aset e.name e.oid acc) (Nat.le_of_succ_le_succ hfuel)

/-- C2 (amended): with an absent or empty filter path, `_read_tree`
returns exactly the top-level listing of the commit tree — each entry of
either kind mapped to its own oid — and does not recurse into Tree-kind
entries, so descendant files are not recorded. -/
theorem readTree_no_filter {store : Store} {tfuel : Nat} {c : GitCommit}
    {t : GitTree} (hs : store.trees c.tree = some t)
    (hfuel : t.entries.length ≤ tfuel) :
    readTree store tfuel c "" =
      some (t.entries.foldl (fun acc e => aset e.name e.oid acc) []) := by
  unfold readTree
  rw [hs]
  exact readTreeEntries_no_filter store t.entries tfuel [] hfuel

/-- Counterexample to C2 as stated: with no filter, flattening the nested
store records only the two top-level entries; the descendant leaf blob
`d/a.txt` (inside tree-kind entry `d`) is absent from the result, although
the claim requires every descendant leaf blob to appear. -/
theorem readTree_no_filter_counterexample :
    readTree storeSub 5 ⟨10, []⟩ "" = some [("d", 20), ("top.txt", 5)] ∧
    alookup "d/a.txt" [("d", 20), ("top.txt", 5)] = none ∧
    storeSub.trees 20 = some ⟨[⟨"s", 21, true⟩, ⟨"a.txt", 30, false⟩]⟩ := by
  refine ⟨by decide, by decide, by decide⟩

/-- Witness for the amended C2 at the nested store. -/
theorem readTree_no_filter_witness :
    readTree storeSub 5 ⟨10, []⟩ "" =
      some (([⟨"d", 20, true⟩, ⟨"top.txt", 5, false⟩] : List TreeEntry).foldl
        (fun acc e => aset e.name e.oid acc) []) :=
  @readTree_no_filter storeSub 5 ⟨10, []⟩ ⟨[⟨"d", 20, true⟩, ⟨"top.txt", 5, false⟩]⟩
    (by decide) (by decide)

/-- C3 (amended): when the flattener reaches an entry whose path is
strictly inside the filtered scope (or no filter is set), it records
`path ↦ oid` and continues with the remaining entries without recursing;
in particular the outcome is the same whether the entry is Tree-kind or
Blob-kind, so descendants of in-scope subtrees are never enumerated. -/
theorem readTreeEntries_in_scope_step (store : Store) (fp : String) (fuel : Nat)
    (e : TreeEntry) (rest : List TreeEntry) (pfx : String)
    (acc : List (String × Nat))
    (hcond : ¬(fp ≠ "" ∧ (fp = pathJoin pfx e.name ∨
      strStarts fp (pathJoin pfx e.name ++ "/"))))
    (hin : fp = "" ∨ strStarts (pathJoin pfx e.name) (fp ++ "/")) :
    readTreeEntries store fp (fuel + 1) (e :: rest) pfx acc =
      readTreeEntries store fp fuel rest pfx (aset (pathJoin pfx e.name) e.oid acc) ∧
    (∀ b, readTreeEntries store fp (fuel + 1)
        ({ e with isTree := b } :: rest) pfx acc =
      readTreeEntries store fp (fuel + 1) (e :: rest) pfx acc) := by
  have hstep : ∀ e2 : TreeEntry, e2.name = e.name → e2.oid = e.oid →
      readTreeEntries store fp (fuel + 1) (e2 :: rest) pfx acc =
        readTreeEntries store fp fuel rest pfx
          (aset (pathJoin pfx e.name) e.oid acc) := by
    intro e2 hname hoid
    rw [readTreeEntries.eq_def]
    dsimp only
    rw [hname, hoid]
    rw [if_neg hcond, if_pos hin]
  constructor
  · exact hstep e rfl rfl
  · intro b
    rw [hstep { e with isTree := b } rfl rfl, hstep e rfl rfl]

/-- Counterexample to C3 as stated: filtering on `d`, the in-scope
Tree-kind entry `d/s` is recorded but not recursed into, so its descendant
`d/s/x.txt` is missing from the result, although the claim requires all
descendants of in-scope Tree-kind entries to be recorded. -/
theorem readTree_in_scope_counterexample :
    readTree storeSub 5 ⟨10, []⟩ "d" = some [("d/s", 21), ("d/a.txt", 30)] ∧
    alookup "d/s/x.txt" [("d/s", 21), ("d/a.txt", 30)] = none ∧
    storeSub.trees 21 = some ⟨[⟨"x.txt", 31, false⟩]⟩ := by
  refine ⟨by decide, by decide, by decide⟩

/-- Witness for the amended C3: an in-scope record step at a concrete
entry, identical for Tree and Blob kinds. -/
theorem readTreeEntries_in_scope_step_witness :
    (readTreeEntries storeSub "d" 3 [⟨"s", 21, true⟩] "d" [] =
      readTreeEntries storeSub "d" 2 [] "d" (aset (pathJoin "d" "s") 21 []) ∧
    (∀ b, readTreeEntries storeSub "d" 3
        [({ name := "s", oid := 21, isTree := b } : TreeEntry)] "d" [] =
      readTreeEntries storeSub "d" 3 [(⟨"s", 21, true⟩ : TreeEntry)] "d" [])) :=
  readTreeEntries_in_scope_step storeSub "d" 2 ⟨"s", 21, true⟩ [] "d" []
    (by decide) (by decide)

/-! ### Non-matching filter paths (C9) -/

/-- The recursive enumeration of every entry path of a tree, at any
depth: each entry contributes its full path, and tree-kind entries
additionally contribute the paths of their subtree.  Fuel is threaded
exactly as in `readTreeEntries`; `none` models a failed store lookup or
exhausted fuel. -/
def treePaths (store : Store) :
    Nat → List TreeEntry → String → Option (List String)
  | _, [], _ => some []
  | 0, _ :: _, _ => none
  | Nat.succ fuel, e :: rest, pfx =>
    let path := pathJoin pfx e.name
    if e.isTree then
      match store.trees e.oid with
      | none => none
      | some sub =>
        match treePaths store fuel sub.entries path with
        | none => none
        | some ps =>
          match treePaths store fuel rest pfx with
          | none => none
          | some qs => some (path :: (ps ++ qs))
    else
      match treePaths store fuel rest pfx with
      | none => none
      | some qs => some (path :: qs)

/-- When the (non-empty) filter path is not the full path of any entry of
the tree, at any depth, and no entry path lies strictly inside it, the
flattener records nothing: every descent toward the filter path dead-ends
and no entry ever enters the recording scope. -/
theorem readTreeEntries_unreachable (store : Store) (fp : String) (hfp : fp ≠ "") :
    ∀ (fuel : Nat) (entries : List TreeEntry) (pfx : String)
      (acc : List (String × Nat)) (paths : List String),
      treePaths store fuel entries pfx = some paths →
      fp ∉ paths →
      (∀ p, p ∈ paths → ¬ strStarts p (fp ++ "/")) →
      readTreeEntries store fp fuel entries pfx acc = some acc := by
  intro fuel
  induction fuel with
  | zero =>
    intro entries pfx acc paths htp hne hins
    cases entries with
    | nil => rw [readTreeEntries]
    | cons e rest =>
      rw [treePaths] at htp
      exact Option.noConfusion htp
  | succ fuel ih =>
    intro entries pfx acc paths htp hne hins
    cases entries with
    | nil => rw [readTreeEntries]
    | cons e rest =>
      simp only [treePaths] at htp
      rw [readTreeEntries.eq_def]
      dsimp only
      cases he : e.isTree with
      | true =>
        rw [he, if_pos rfl] at htp
        cases hsub : store.trees e.oid with
        | none =>
          rw [hsub] at htp
          exact Option.noConfusion htp
        | some sub =>
          rw [hsub] at htp
          simp only at htp
          cases htps : treePaths store fuel sub.entries (pathJoin pfx e.name) with
          | none =>
            rw [htps] at htp
            exact Option.noConfusion htp
          | some ps =>
            rw [htps] at htp
            simp only at htp
            cases htpr : treePaths store fuel rest pfx with
            | none =>
              rw [htpr] at htp
              exact Option.noConfusion htp
            | some qs =>
              rw [htpr] at htp
              simp only at htp
              injection htp with htp
              subst htp
              have hmem : pathJoin pfx e.name ∈
                  pathJoin pfx e.name :: (ps ++ qs) := List.mem_cons_self _ _
              have hnep : fp ≠ pathJoin pfx e.name := by
                intro e2
                refine hne ?_
                rw [e2]
                exact hmem
              have hins1 : ¬ strStarts (pathJoin pfx e.name) (fp ++ "/") :=
                hins _ hmem
              have hne2 : fp ∉ ps := fun h2 =>
                hne (List.mem_cons_of_mem _ (List.mem_append_left _ h2))
              have hne3 : fp ∉ qs := fun h2 =>
                hne (List.mem_cons_of_mem _ (List.mem_append_right _ h2))
              have hins2 : ∀ p, p ∈ ps → ¬ strStarts p (fp ++ "/") :=
                fun p hp => hins p (List.mem_cons_of_mem _ (List.mem_append_left _ hp))
              have hins3 : ∀ p, p ∈ qs → ¬ strStarts p (fp ++ "/") :=
                fun p hp => hins p (List.mem_cons_of_mem _ (List.mem_append_right _ hp))
              by_cases hd : strStarts fp (pathJoin pfx e.name ++ "/")
              · rw [if_pos ⟨hfp, Or.inr hd⟩, if_pos rfl]
                simp only
                rw [ih sub.entries (pathJoin pfx e.name) acc ps htps hne2 hins2]
                simp only
                exact ih rest pfx acc qs htpr hne3 hins3
              · rw [if_neg (fun hc => hc.2.elim (fun h2 => hnep h2)
                  (fun h2 => hd h2))]
                rw [if_neg (fun hc => hc.elim (fun h2 => hfp h2)
                  (fun h2 => hins1 h2))]
                exact ih rest pfx acc qs htpr hne3 hins3
      | false =>
        rw [he, if_neg (by simp)] at htp
        cases htpr : treePaths store fuel rest pfx with
        | none =>
          rw [htpr] at htp
          exact Option.noConfusion htp
        | some qs =>
          rw [htpr] at htp
          simp only at htp
          injection htp with htp
          subst htp
          have hmem : pathJoin pfx e.name ∈ pathJoin pfx e.name :: qs :=
            List.mem_cons_self _ _
          have hnep : fp ≠ pathJoin pfx e.name := by
            intro e2
            refine hne ?_
            rw [e2]
            exact hmem
          have hins1 : ¬ strStarts (pathJoin pfx e.name) (fp ++ "/") :=
            hins _ hmem
          have hne3 : fp ∉ qs := fun h2 => hne (List.mem_cons_of_mem _ h2)
          have hins3 : ∀ p, p ∈ qs → ¬ strStarts p (fp ++ "/") :=
            fun p hp => hins p (List.mem_cons_of_mem _ hp)
          by_cases hd : strStarts fp (pathJoin pfx e.name ++ "/")
          · rw [if_pos ⟨hfp, Or.inr hd⟩, if_neg (by simp)]
            exact ih rest pfx acc qs htpr hne3 hins3
          · rw [if_neg (fun hc => hc.2.elim (fun h2 => hnep h2)
              (fun h2 => hd h2))]
            rw [if_neg (fun hc => hc.elim (fun h2 => hfp h2)
              (fun h2 => hins1 h2))]
            exact ih rest pfx acc qs htpr hne3 hins3

/-- C9: a filter path that does not correspond to any entry of the start
tree — it is not the full path of any entry, at any depth, and no entry
lies strictly inside its scope — yields an empty flattened tree, and the
resolver returns the empty result map normally; no error is raised. -/
theorem non_matching_filter_empty {store : Store} {tfuel : Nat}
    {sched : List Nat → Nat} {rootHex : Nat} {fp : String} {rc : GitCommit}
    {t : GitTree} {paths : List String}
    (hrc : store.commits rootHex = some rc)
    (hrt : store.trees rc.tree = some t)
    (hfp : fp ≠ "")
    (hpaths : treePaths store tfuel t.entries "" = some paths)
    (hnomatch : fp ∉ paths)
    (hnounder : ∀ p, p ∈ paths → ¬ strStarts p (fp ++ "/"))
    (hsched : ∀ l, l ≠ [] → sched l ∈ l) :
    readTree store tfuel rc fp = some [] ∧
    ∀ lf, get_latest_changing_commits_for_tree store tfuel (lf + 1) sched rootHex fp
      = some [] := by
  have hread : readTree store tfuel rc fp = some [] := by
    unfold readTree
    rw [hrt]
    exact readTreeEntries_unreachable store fp hfp tfuel t.entries "" [] paths
      hpaths hnomatch hnounder
  refine ⟨hread, fun lf => ?_⟩
  unfold get_latest_changing_commits_for_tree
  rw [hrc]
  simp only
  rw [hread]
  simp only [List.map_nil]
  have hs : sched [rootHex] = rootHex := by
    have := hsched [rootHex] (by simp)
    simpa using this
  rw [runLoop_step]
  simp only [hs, hrc]
  have hl : alookup rootHex [(rootHex, (⟨[], []⟩ : CommitState))] =
      some ⟨[], []⟩ := by
    rw [alookup_cons, if_pos rfl]
  simp only [hl]
  rw [show processHeld store tfuel fp rc []
      (clearHeld [(rootHex, (⟨[], []⟩ : CommitState))] rootHex)
      ([rootHex].erase rootHex) [] =
      some (clearHeld [(rootHex, (⟨[], []⟩ : CommitState))] rootHex,
        [rootHex].erase rootHex, []) from rfl]
  simp only
  rw [show ([rootHex].erase rootHex : List Nat) = [] from by simp]
  rw [runLoop_nil]

/-- The nested-directory store with a single root commit 400 whose tree is
the nested root tree. -/
def storeSubC : Store :=
  ⟨subTrees, fun h => if h = 400 then some ⟨10, []⟩ else none⟩

theorem headSched_mem : ∀ l : List Nat, l ≠ [] → headSched l ∈ l := by
  intro l h
  cases l with
  | nil => exact absurd rfl h
  | cons a t => exact List.mem_cons_self _ _

/-- Witness for C9: the filter path `d/zzz` descends into the existing
top-level tree `d` but corresponds to no entry of the nested store; the
flatten finds nothing and the resolver returns the empty map without
error. -/
theorem non_matching_filter_empty_witness :
    readTree storeSubC 5 ⟨10, []⟩ "d/zzz" = some [] ∧
    ∀ lf, get_latest_changing_commits_for_tree storeSubC 5 (lf + 1) headSched
      400 "d/zzz" = some [] :=
  @non_matching_filter_empty storeSubC 5 headSched 400 "d/zzz" ⟨10, []⟩
    ⟨[⟨"d", 20, true⟩, ⟨"top.txt", 5, false⟩]⟩
    ["d", "d/s", "d/s/x.txt", "d/a.txt", "top.txt"]
    (by decide) (by decide) (by decide) (by decide) (by decide) (by decide)
    headSched_mem

/-! ### Cache effectiveness: instrumented run (C8) -/

/-- Instrumented variant of `scanParents` that additionally returns the
log of commit ids whose trees are freshly flattened (cache misses),
appended in order; the computation is otherwise identical. -/
def scanParentsT (store : Store) (tfuel : Nat) (fp : String) (path : String)
    (pd : PathDict) :
    List Nat → List (Nat × CommitState) → List Nat → List Nat →
    Option (List (Nat × CommitState) × List Nat × Option PathDict × List Nat)
  | [], cs, pend, log => some (cs, pend, none, log)
  | ph :: rest, cs, pend, log =>
    match store.commits ph with
    | none => none
    | some pc =>
      match alookup ph cs with
      | some st =>
        match alookup path st.tree with
        | some poid =>
          if poid = pd.oid then
            some (heldSet cs ph path { pd with latest := ph }, setAdd pend ph,
                  some { pd with latest := ph }, log)
          else scanParentsT store tfuel fp path pd rest cs pend log
        | none => scanParentsT store tfuel fp path pd rest cs pend log
      | none =>
        match readTree store tfuel pc fp with
        | none => none
        | some pt =>
          let cs' := cs ++ [(ph, ⟨pt, []⟩)]
          let log' := log ++ [ph]
          match alookup path pt with
          | some poid =>
            if poid = pd.oid then
              some (heldSet cs' ph path { pd with latest := ph }, setAdd pend ph,
                    some { pd with latest := ph }, log')
            else scanParentsT store tfuel fp path pd rest cs' pend log'
          | none => scanParentsT store tfuel fp path pd rest cs' pend log'

/-- Instrumented variant of `processHeld`, threading the flatten log. -/
def processHeldT (store : Store) (tfuel : Nat) (fp : String) (c : GitCommit) :
    List (String × PathDict) → List (Nat × CommitState) → List Nat →
    List (String × PathDict) → List Nat →
    Option (List (Nat × CommitState) × List Nat × List (String × PathDict) × List Nat)
  | [], cs, pend, res, log => some (cs, pend, res, log)
  | (path, pd) :: rest, cs, pend, res, log =>
    match scanParentsT store tfuel fp path pd c.parents cs pend log with
    | none => none
    | some (cs', pend', found, log') =>
      match found with
      | some _ => processHeldT store tfuel fp c rest cs' pend' res log'
      | none => processHeldT store tfuel fp c rest cs' pend' (res ++ [(path, pd)]) log'

/-- Instrumented variant of `runLoop`, threading the flatten log. -/
def runLoopT (store : Store) (tfuel : Nat) (fp : String) (sched : List Nat → Nat) :
    Nat → RState → List Nat → Option (List (String × PathDict) × List Nat)
  | fuel, st, log =>
    match st.pending with
    | [] => some (st.resolved, log)
    | _ :: _ =>
      match fuel with
      | 0 => none
      | Nat.succ fuel' =>
        let chex := sched st.pending
        match store.commits chex with
        | none => none
        | some c =>
          match alookup chex st.commits with
          | none => none
          | some cst =>
            match processHeldT store tfuel fp c cst.held
                (clearHeld st.commits chex) (st.pending.erase chex) st.resolved log with
            | none => none
            | some (cs2, pend2, res2, log2) =>
              runLoopT store tfuel fp sched fuel' ⟨cs2, res2, pend2⟩ log2

/-- Unfolding equation of `runLoopT` at an empty pending set. -/
theorem runLoopT_nil (store : Store) (tfuel : Nat) (fp : String)
    (sched : List Nat → Nat) (fuel : Nat) (cs : List (Nat × CommitState))
    (res : List (String × PathDict)) (log : List Nat) :
    runLoopT store tfuel fp sched fuel ⟨cs, res, []⟩ log = some (res, log) := by
  cases fuel with
  | zero => rfl
  | succ f => rfl

/-- Unfolding equation of `runLoopT` at exhausted fuel. -/
theorem runLoopT_zero_cons (store : Store) (tfuel : Nat) (fp : String)
    (sched : List Nat → Nat) (cs : List (Nat × CommitState))
    (res : List (String × PathDict)) (p : Nat) (ps : List Nat) (log : List Nat) :
    runLoopT store tfuel fp sched 0 ⟨cs, res, p :: ps⟩ log = none := rfl

/-- Unfolding equation of `runLoopT` at a non-empty pending set with
positive fuel. -/
theorem runLoopT_step (store : Store) (tfuel : Nat) (fp : String)
    (sched : List Nat → Nat) (fuel : Nat) (cs : List (Nat × CommitState))
    (res : List (String × PathDict)) (p : Nat) (ps : List Nat) (log : List Nat) :
    runLoopT store tfuel fp sched (fuel + 1) ⟨cs, res, p :: ps⟩ log =
      (match store.commits (sched (p :: ps)) with
       | none => none
       | some c =>
         match alookup (sched (p :: ps)) cs with
         | none => none
         | some cst =>
           match processHeldT store tfuel fp c cst.held
               (clearHeld cs (sched (p :: ps)))
               ((p :: ps).erase (sched (p :: ps))) res log with
           | none => none
           | some (cs2, pend2, res2, log2) =>
             runLoopT store tfuel fp sched fuel ⟨cs2, res2, pend2⟩ log2) := rfl

/-- Unfolding equation of `runLoop` at exhausted fuel. -/
theorem runLoop_zero_cons (store : Store) (tfuel : Nat) (fp : String)
    (sched : List Nat → Nat) (cs : List (Nat × CommitState))
    (res : List (String × PathDict)) (p : Nat) (ps : List Nat) :
    runLoop store tfuel fp sched 0 ⟨cs, res, p :: ps⟩ = none := rfl

/-- Instrumented variant of the resolver: alongside the result, return the
ordered log of commit ids whose trees were flattened during the run (the
start commit first). -/
def get_latest_changing_commits_for_tree_traced (store : Store) (tfuel lfuel : Nat)
    (sched : List Nat → Nat) (rootHex : Nat) (fp : String) :
    Option (List (String × PathDict) × List Nat) :=
  match store.commits rootHex with
  | none => none
  | some root =>
    match readTree store tfuel root fp with
    | none => none
    | some tree =>
      let held := tree.map (fun p => (p.1, PathDict.mk p.2 rootHex))
      runLoopT store tfuel fp sched lfuel
        ⟨[(rootHex, ⟨tree, held⟩)], [], [rootHex]⟩ [rootHex]

theorem nodup_akeys_snoc {cs : List (Nat × CommitState)} {ph : Nat}
    (pt : List (String × Nat)) (hph : alookup ph cs = none)
    (hnd : (akeys cs).Nodup) : (akeys (cs ++ [(ph, ⟨pt, []⟩)])).Nodup := by
  rw [akeys_append]
  refine hnd.append (by simp [akeys]) ?_
  intro a ha hb
  simp [akeys] at hb
  subst hb
  exact ((alookup_eq_none a cs).mp hph) ha

/-- The instrumented scan computes the same outcome as `scanParents` and
keeps the flatten log equal to the cache key list (hence freshly flattened
commits are exactly the newly cached ones, in order). -/
theorem scanParentsT_spec (store : Store) (tfuel : Nat) (fp path : String)
    (pd : PathDict) (ps : List Nat) :
    ∀ cs pend log,
      (scanParentsT store tfuel fp path pd ps cs pend log = none ↔
        scanParents store tfuel fp path pd ps cs pend = none) ∧
      (∀ cs2 pend2 r log2,
        scanParentsT store tfuel fp path pd ps cs pend log = some (cs2, pend2, r, log2) →
        scanParents store tfuel fp path pd ps cs pend = some (cs2, pend2, r) ∧
        (log = akeys cs → (akeys cs).Nodup →
          (log2 = akeys cs2 ∧ (akeys cs2).Nodup))) := by
  induction ps with
  | nil =>
    intro cs pend log
    constructor
    · rw [scanParentsT, scanParents]
      constructor
      · intro h; cases h
      · intro h; cases h
    · intro cs2 pend2 r log2 h
      rw [scanParentsT] at h
      injection h with h
      injection h with h1 h
      injection h with h2 h
      injection h with h3 h4
      subst h1; subst h2; subst h3; subst h4
      rw [scanParents]
      exact ⟨rfl, fun hlog hnd => ⟨hlog, hnd⟩⟩
  | cons ph rest ih =>
    intro cs pend log
    cases hc : store.commits ph with
    | none =>
      constructor
      · simp [scanParentsT, scanParents, hc]
      · intro cs2 pend2 r log2 h
        simp only [scanParentsT, hc] at h
        exact Option.noConfusion h
    | some pc =>
      cases hcache : alookup ph cs with
      | some st =>
        cases hl : alookup path st.tree with
        | some poid =>
          by_cases he : poid = pd.oid
          · subst he
            constructor
            · simp [scanParentsT, scanParents, hc, hcache, hl]
            · intro cs2 pend2 r log2 h
              simp only [scanParentsT, hc, hcache, hl] at h
              rw [if_true] at h
              injection h with h
              injection h with h1 h
              injection h with h2 h
              injection h with h3 h4
              subst h1; subst h2; subst h3; subst h4
              constructor
              · simp only [scanParents, hc, hcache, hl]
                rw [if_true]
              · intro hlog hnd
                rw [akeys_heldSet]
                exact ⟨hlog, hnd⟩
          · have hrec := ih cs pend log
            constructor
            · simp only [scanParentsT, scanParents, hc, hcache, hl]
              rw [if_neg he, if_neg he]
              exact hrec.1
            · intro cs2 pend2 r log2 h
              simp only [scanParentsT, hc, hcache, hl] at h
              rw [if_neg he] at h
              rcases hrec.2 cs2 pend2 r log2 h with ⟨hsp, hlog⟩
              refine ⟨?_, hlog⟩
              simp only [scanParents, hc, hcache, hl]
              rw [if_neg he]
              exact hsp
        | none =>
          have hrec := ih cs pend log
          constructor
          · simp only [scanParentsT, scanParents, hc, hcache, hl]
            exact hrec.1
          · intro cs2 pend2 r log2 h
            simp only [scanParentsT, hc, hcache, hl] at h
            rcases hrec.2 cs2 pend2 r log2 h with ⟨hsp, hlog⟩
            refine ⟨?_, hlog⟩
            simp only [scanParents, hc, hcache, hl]
            exact hsp
      | none =>
        cases hrt : readTree store tfuel pc fp with
        | none =>
          constructor
          · simp [scanParentsT, scanParents, hc, hcache, hrt]
          · intro cs2 pend2 r log2 h
            simp only [scanParentsT, hc, hcache, hrt] at h
            exact Option.noConfusion h
        | some pt =>
          have hlogstep : ∀ (lg : List Nat), lg = akeys cs → (akeys cs).Nodup →
              lg ++ [ph] = akeys (cs ++ [(ph, (⟨pt, []⟩ : CommitState))]) ∧
              (akeys (cs ++ [(ph, (⟨pt, []⟩ : CommitState))])).Nodup := by
            intro lg hlg hnd
            subst hlg
            constructor
            · rw [akeys_append]
              rfl
            · exact nodup_akeys_snoc pt hcache hnd
          cases hl : alookup path pt with
          | some poid =>
            by_cases he : poid = pd.oid
            · subst he
              constructor
              · simp [scanParentsT, scanParents, hc, hcache, hrt, hl]
              · intro cs2 pend2 r log2 h
                simp only [scanParentsT, hc, hcache, hrt, hl] at h
                rw [if_true] at h
                injection h with h
                injection h with h1 h
                injection h with h2 h
                injection h with h3 h4
                subst h1; subst h2; subst h3; subst h4
                constructor
                · simp only [scanParents, hc, hcache, hrt, hl]
                  rw [if_true]
                · intro hlog hnd
                  rw [akeys_heldSet]
                  exact (hlogstep log hlog hnd)
            · have hrec := ih (cs ++ [(ph, ⟨pt, []⟩)]) pend (log ++ [ph])
              constructor
              · simp only [scanParentsT, scanParents, hc, hcache, hrt, hl]
                rw [if_neg he, if_neg he]
                exact hrec.1
              · intro cs2 pend2 r log2 h
                simp only [scanParentsT, hc, hcache, hrt, hl] at h
                rw [if_neg he] at h
                rcases hrec.2 cs2 pend2 r log2 h with ⟨hsp, hlog⟩
                constructor
                · simp only [scanParents, hc, hcache, hrt, hl]
                  rw [if_neg he]
                  exact hsp
                · intro hlg hnd
                  rcases hlogstep log hlg hnd with ⟨e1, e2⟩
                  exact hlog e1 e2
          | none =>
            have hrec := ih (cs ++ [(ph, ⟨pt, []⟩)]) pend (log ++ [ph])
            constructor
            · simp only [scanParentsT, scanParents, hc, hcache, hrt, hl]
              exact hrec.1
            · intro cs2 pend2 r log2 h
              simp only [scanParentsT, hc, hcache, hrt, hl] at h
              rcases hrec.2 cs2 pend2 r log2 h with ⟨hsp, hlog⟩
              constructor
              · simp only [scanParents, hc, hcache, hrt, hl]
                exact hsp
              · intro hlg hnd
                rcases hlogstep log hlg hnd with ⟨e1, e2⟩
                exact hlog e1 e2

/-- The instrumented working-loop pass computes the same outcome as
`processHeld` and preserves the log-equals-cache-keys invariant. -/
theorem processHeldT_spec (store : Store) (tfuel : Nat) (fp : String) (c : GitCommit) :
    ∀ w cs pend res log,
      (∀ cs2 pend2 res2 log2,
        processHeldT store tfuel fp c w cs pend res log = some (cs2, pend2, res2, log2) →
        processHeld store tfuel fp c w cs pend res = some (cs2, pend2, res2) ∧
        (log = akeys cs → (akeys cs).Nodup →
          (log2 = akeys cs2 ∧ (akeys cs2).Nodup))) := by
  intro w
  induction w with
  | nil =>
    intro cs pend res log cs2 pend2 res2 log2 h
    rw [processHeldT] at h
    injection h with h
    injection h with h1 h
    injection h with h2 h
    injection h with h3 h4
    subst h1; subst h2; subst h3; subst h4
    rw [processHeld]
    exact ⟨rfl, fun hlog hnd => ⟨hlog, hnd⟩⟩
  | cons hd rest ih =>
    obtain ⟨path, pd⟩ := hd
    intro cs pend res log cs2 pend2 res2 log2 h
    rw [processHeldT] at h
    cases hscan : scanParentsT store tfuel fp path pd c.parents cs pend log with
    | none =>
      rw [hscan] at h
      exact Option.noConfusion h
    | some out =>
      obtain ⟨cs1, pend1, found, log1⟩ := out
      rw [hscan] at h
      rcases (scanParentsT_spec store tfuel fp path pd c.parents cs pend log).2
        cs1 pend1 found log1 hscan with ⟨hsp, hlog1⟩
      rw [processHeld, hsp]
      cases found with
      | some pdx =>
        simp only at h ⊢
        rcases ih cs1 pend1 res log1 cs2 pend2 res2 log2 h with ⟨h1, h2⟩
        refine ⟨h1, fun hlg hnd => ?_⟩
        rcases hlog1 hlg hnd with ⟨e1, e2⟩
        exact h2 e1 e2
      | none =>
        simp only at h ⊢
        rcases ih cs1 pend1 (res ++ [(path, pd)]) log1 cs2 pend2 res2 log2 h with
          ⟨h1, h2⟩
        refine ⟨h1, fun hlg hnd => ?_⟩
        rcases hlog1 hlg hnd with ⟨e1, e2⟩
        exact h2 e1 e2

/-- The instrumented loop computes the same result as `runLoop` and its
final flatten log equals the final cache key list, hence is duplicate-free
whenever the starting log and cache agree. -/
theorem runLoopT_spec (store : Store) (tfuel : Nat) (fp : String)
    (sched : List Nat → Nat) :
    ∀ fuel st log res log2,
      runLoopT store tfuel fp sched fuel st log = some (res, log2) →
      log = akeys st.commits → (akeys st.commits).Nodup →
      (runLoop store tfuel fp sched fuel st = some res ∧ log2.Nodup) := by
  intro fuel
  induction fuel with
  | zero =>
    intro st log res log2 h hlog hnd
    obtain ⟨cs0, res0, pend0⟩ := st
    simp only at hlog hnd
    cases pend0 with
    | nil =>
      rw [runLoopT_nil] at h
      injection h with h
      injection h with h1 h2
      subst h1; subst h2
      subst hlog
      exact ⟨runLoop_nil store tfuel fp sched 0 cs0 res0, hnd⟩
    | cons p ps =>
      rw [runLoopT_zero_cons] at h
      exact Option.noConfusion h
  | succ fuel' ih =>
    intro st log res log2 h hlog hnd
    obtain ⟨cs0, res0, pend0⟩ := st
    simp only at hlog hnd
    cases pend0 with
    | nil =>
      rw [runLoopT_nil] at h
      injection h with h
      injection h with h1 h2
      subst h1; subst h2
      subst hlog
      exact ⟨runLoop_nil store tfuel fp sched (fuel' + 1) cs0 res0, hnd⟩
    | cons p ps =>
      rw [runLoopT_step] at h
      rw [runLoop_step]
      cases hc : store.commits (sched (p :: ps)) with
      | none =>
        rw [hc] at h
        exact Option.noConfusion h
      | some c =>
        rw [hc] at h
        simp only at h ⊢
        cases hcst : alookup (sched (p :: ps)) cs0 with
        | none =>
          rw [hcst] at h
          exact Option.noConfusion h
        | some cst =>
          rw [hcst] at h
          simp only at h ⊢
          cases hph : processHeldT store tfuel fp c cst.held
              (clearHeld cs0 (sched (p :: ps)))
              ((p :: ps).erase (sched (p :: ps))) res0 log with
          | none =>
            rw [hph] at h
            exact Option.noConfusion h
          | some out =>
            obtain ⟨cs2, pend2, res2, log1⟩ := out
            rw [hph] at h
            simp only at h
            rcases processHeldT_spec store tfuel fp c cst.held
                (clearHeld cs0 (sched (p :: ps)))
                ((p :: ps).erase (sched (p :: ps))) res0 log
                cs2 pend2 res2 log1 hph with ⟨hproc, hlg⟩
            rcases hlg (by rw [akeys_clearHeld]; exact hlog)
                (by rw [akeys_clearHeld]; exact hnd) with ⟨e1, e2⟩
            rw [hproc]
            simp only
            exact ih ⟨cs2, res2, pend2⟩ log1 res log2 h e1 e2

/-- C8: cache effectiveness.  In an instrumented run that logs every fresh
tree flattening, the log of a successful run is duplicate-free — each
distinct commit id is flattened at most once, even when reachable along
several DAG paths (later encounters hit the cache and reuse the stored
flat tree) — and the instrumented run computes exactly the result of
`get_latest_changing_commits_for_tree`. -/
theorem cache_flattened_once {store : Store} {tfuel lfuel : Nat}
    {sched : List Nat → Nat} {rootHex : Nat} {fp : String}
    {res : List (String × PathDict)} {log : List Nat}
    (h : get_latest_changing_commits_for_tree_traced store tfuel lfuel sched rootHex fp
      = some (res, log)) :
    log.Nodup ∧
    get_latest_changing_commits_for_tree store tfuel lfuel sched rootHex fp
      = some res := by
  unfold get_latest_changing_commits_for_tree_traced at h
  unfold get_latest_changing_commits_for_tree
  cases hrc : store.commits rootHex with
  | none => rw [hrc] at h; cases h
  | some root =>
    rw [hrc] at h
    simp only at h ⊢
    cases hrt : readTree store tfuel root fp with
    | none => rw [hrt] at h; cases h
    | some tree =>
      rw [hrt] at h
      simp only at h ⊢
      rcases runLoopT_spec store tfuel fp sched lfuel
        ⟨[(rootHex, ⟨tree, tree.map (fun p => (p.1, PathDict.mk p.2 rootHex))⟩)],
          [], [rootHex]⟩ [rootHex] res log h (by rfl) (by simp [akeys]) with ⟨h1, h2⟩
      exact ⟨h2, h1⟩

/-- Witness for C8 at the diamond scenario: commit 303 is reachable via
both parents 301 and 302 of the merge, yet the flatten log
`[300, 301, 302, 303]` lists each commit exactly once. -/
theorem cache_flattened_once_witness :
    ([300, 301, 302, 303] : List Nat).Nodup ∧
    get_latest_changing_commits_for_tree storeDia 5 10 headSched 300 "" =
      some resDiaHead :=
  @cache_flattened_once storeDia 5 10 headSched 300 "" resDiaHead
    [300, 301, 302, 303] (by decide)

/-! ### Termination of the frontier loop (C6) -/

/-- The weight of one held entry under a rank function: one plus the rank
of the commit currently holding it. -/
def pdw (rank : Nat → Nat) (pd : PathDict) : Nat := 1 + rank pd.latest

/-- The total weight of all held entries in the cache. -/
def heldWeight (rank : Nat → Nat) (cs : List (Nat × CommitState)) : Nat :=
  (cs.map (fun p => ((p.2.held.map (fun q => pdw rank q.2)).sum))).sum

theorem heldWeight_nil (rank : Nat → Nat) : heldWeight rank [] = 0 := rfl

theorem heldWeight_cons (rank : Nat → Nat) (p : Nat × CommitState)
    (cs : List (Nat × CommitState)) :
    heldWeight rank (p :: cs) =
      (p.2.held.map (fun q => pdw rank q.2)).sum + heldWeight rank cs := by
  simp [heldWeight]

theorem heldWeight_snoc_empty (rank : Nat → Nat) (cs : List (Nat × CommitState))
    (ph : Nat) (pt : List (String × Nat)) :
    heldWeight rank (cs ++ [(ph, ⟨pt, []⟩)]) = heldWeight rank cs := by
  simp [heldWeight]

theorem sum_map_aset_le (g : String × PathDict → Nat) (k : String) (v : PathDict) :
    ∀ d : List (String × PathDict),
      ((aset k v d).map g).sum ≤ (d.map g).sum + g (k, v) := by
  intro d
  induction d with
  | nil => simp [aset]
  | cons p rest ih =>
    obtain ⟨a, b⟩ := p
    by_cases h2 : a = k
    · simp only [aset, if_pos h2, List.map_cons, List.sum_cons]
      omega
    · simp only [aset, if_neg h2, List.map_cons, List.sum_cons]
      omega

theorem heldWeight_heldSet_le (rank : Nat → Nat) (ph : Nat) (path : String)
    (pd : PathDict) :
    ∀ cs : List (Nat × CommitState), (akeys cs).Nodup →
      heldWeight rank (heldSet cs ph path pd) ≤ heldWeight rank cs + pdw rank pd := by
  intro cs
  induction cs with
  | nil => intro _; simp [heldSet, heldWeight]
  | cons p rest ih =>
    intro hnd
    obtain ⟨a, cst⟩ := p
    have hnd2 := List.nodup_cons.mp (show (a :: akeys rest).Nodup from hnd)
    rw [heldSet_cons]
    by_cases h2 : a = ph
    · rw [if_pos h2]
      subst h2
      rw [show heldSet rest a path pd = rest from heldSet_of_not_mem path pd hnd2.1]
      rw [heldWeight_cons, heldWeight_cons]
      have := sum_map_aset_le (fun q => pdw rank q.2) path pd cst.held
      simp only at this ⊢
      omega
    · rw [if_neg h2]
      rw [heldWeight_cons, heldWeight_cons]
      have := ih hnd2.2
      simp only at this ⊢
      omega

theorem heldWeight_clearHeld (rank : Nat → Nat) (chex : Nat) :
    ∀ cs : List (Nat × CommitState), (akeys cs).Nodup →
      ∀ cst, alookup chex cs = some cst →
      heldWeight rank cs =
        heldWeight rank (clearHeld cs chex) +
          (cst.held.map (fun q => pdw rank q.2)).sum := by
  intro cs
  induction cs with
  | nil => intro _ cst h; cases h
  | cons p rest ih =>
    intro hnd cst hl
    obtain ⟨a, cst0⟩ := p
    have hnd2 := List.nodup_cons.mp (show (a :: akeys rest).Nodup from hnd)
    rw [clearHeld_cons]
    by_cases h2 : a = chex
    · rw [if_pos h2]
      subst h2
      rw [alookup_cons, if_pos rfl] at hl
      injection hl with hl
      subst hl
      rw [show clearHeld rest a = rest from clearHeld_of_not_mem hnd2.1]
      rw [heldWeight_cons, heldWeight_cons]
      simp only [List.map_nil, List.sum_nil]
      omega
    · rw [if_neg h2]
      rw [alookup_cons, if_neg h2] at hl
      rw [heldWeight_cons, heldWeight_cons]
      have := ih hnd2.2 cst hl
      simp only at this ⊢
      omega

theorem sum_map_const_latest (rank : Nat → Nat) (chex : Nat) :
    ∀ held : List (String × PathDict),
      (∀ path pdx, (path, pdx) ∈ held → pdx.latest = chex) →
      (held.map (fun q => pdw rank q.2)).sum = held.length * (1 + rank chex) := by
  intro held
  induction held with
  | nil => intro _; simp
  | cons p rest ih =>
    intro hall
    obtain ⟨path, pdx⟩ := p
    have h1 : pdx.latest = chex := hall path pdx (List.mem_cons_self _ _)
    have h2 := ih (fun path2 pd2 hm => hall path2 pd2 (List.mem_cons_of_mem _ hm))
    rw [List.map_cons, List.sum_cons, List.length_cons, h2]
    show pdw rank pdx + rest.length * (1 + rank chex) = (rest.length + 1) * (1 + rank chex)
    rw [pdw, h1]
    ring

theorem setAdd_length_le (l : List Nat) (x : Nat) :
    (setAdd l x).length ≤ l.length + 1 := by
  unfold setAdd
  by_cases h : x ∈ l
  · rw [if_pos h]; omega
  · rw [if_neg h]; simp

theorem mem_setAdd {l : List Nat} {x y : Nat} (h : y ∈ setAdd l x) :
    y ∈ l ∨ y = x := by
  unfold setAdd at h
  by_cases h2 : x ∈ l
  · rw [if_pos h2] at h; exact Or.inl h
  · rw [if_neg h2] at h
    rcases List.mem_append.mp h with h3 | h3
    · exact Or.inl h3
    · simp at h3; exact Or.inr h3

/-- Weight accounting for one parent scan: a resolving scan leaves weight
and pending unchanged; an advancing scan adds at most the weight of the
advanced entry and at most one pending commit, and lands on a scanned
parent. -/
theorem scanParents_measure (store : Store) (tfuel : Nat) (fp path : String)
    (pd : PathDict) (rank : Nat → Nat) (ps : List Nat) :
    ∀ cs pend cs2 pend2 r,
      (akeys cs).Nodup →
      scanParents store tfuel fp path pd ps cs pend = some (cs2, pend2, r) →
      ((akeys cs2).Nodup ∧
       (r = none → heldWeight rank cs2 = heldWeight rank cs ∧ pend2 = pend) ∧
       (∀ pdx, r = some pdx → pdx.latest ∈ ps ∧
         heldWeight rank cs2 ≤ heldWeight rank cs + pdw rank pdx ∧
         pend2.length ≤ pend.length + 1)) := by
  induction ps with
  | nil =>
    intro cs pend cs2 pend2 r hnd h
    rw [scanParents] at h
    injection h with h
    injection h with h1 h
    injection h with h2 h3
    subst h1; subst h2; subst h3
    exact ⟨hnd, fun _ => ⟨rfl, rfl⟩, fun pdx hx => Option.noConfusion hx⟩
  | cons ph rest ih =>
    intro cs pend cs2 pend2 r hnd h
    cases hc : store.commits ph with
    | none =>
      simp only [scanParents, hc] at h
      exact Option.noConfusion h
    | some pc =>
      cases hcache : alookup ph cs with
      | some st =>
        cases hl : alookup path st.tree with
        | some poid =>
          by_cases he : poid = pd.oid
          · subst he
            simp only [scanParents, hc, hcache, hl] at h
            rw [if_true] at h
            injection h with h
            injection h with h1 h
            injection h with h2 h3
            subst h1; subst h2; subst h3
            refine ⟨by rw [akeys_heldSet]; exact hnd, fun hx => Option.noConfusion hx,
              fun pdx hx => ?_⟩
            injection hx with hx
            subst hx
            refine ⟨List.mem_cons_self _ _, ?_, setAdd_length_le pend ph⟩
            exact heldWeight_heldSet_le rank ph path _ cs hnd
          · simp only [scanParents, hc, hcache, hl] at h
            rw [if_neg he] at h
            rcases ih cs pend cs2 pend2 r hnd h with ⟨o1, o2, o3⟩
            refine ⟨o1, o2, fun pdx hx => ?_⟩
            rcases o3 pdx hx with ⟨m1, m2, m3⟩
            exact ⟨List.mem_cons_of_mem _ m1, m2, m3⟩
        | none =>
          simp only [scanParents, hc, hcache, hl] at h
          rcases ih cs pend cs2 pend2 r hnd h with ⟨o1, o2, o3⟩
          refine ⟨o1, o2, fun pdx hx => ?_⟩
          rcases o3 pdx hx with ⟨m1, m2, m3⟩
          exact ⟨List.mem_cons_of_mem _ m1, m2, m3⟩
      | none =>
        cases hrt : readTree store tfuel pc fp with
        | none =>
          simp only [scanParents, hc, hcache, hrt] at h
          exact Option.noConfusion h
        | some pt =>
          have hnd1 : (akeys (cs ++ [(ph, (⟨pt, []⟩ : CommitState))])).Nodup :=
            nodup_akeys_snoc pt hcache hnd
          have hw1 : heldWeight rank (cs ++ [(ph, (⟨pt, []⟩ : CommitState))]) =
              heldWeight rank cs := heldWeight_snoc_empty rank cs ph pt
          cases hl : alookup path pt with
          | some poid =>
            by_cases he : poid = pd.oid
            · subst he
              simp only [scanParents, hc, hcache, hrt, hl] at h
              rw [if_true] at h
              injection h with h
              injection h with h1 h
              injection h with h2 h3
              subst h1; subst h2; subst h3
              refine ⟨by rw [akeys_heldSet]; exact hnd1,
                fun hx => Option.noConfusion hx, fun pdx hx => ?_⟩
              injection hx with hx
              subst hx
              refine ⟨List.mem_cons_self _ _, ?_, setAdd_length_le pend ph⟩
              have := heldWeight_heldSet_le rank ph path
                { pd with latest := ph } (cs ++ [(ph, ⟨pt, []⟩)]) hnd1
              rw [hw1] at this
              exact this
            · simp only [scanParents, hc, hcache, hrt, hl] at h
              rw [if_neg he] at h
              rcases ih (cs ++ [(ph, ⟨pt, []⟩)]) pend cs2 pend2 r hnd1 h with
                ⟨o1, o2, o3⟩
              refine ⟨o1, fun hx => ?_, fun pdx hx => ?_⟩
              · rcases o2 hx with ⟨m1, m2⟩
                rw [hw1] at m1
                exact ⟨m1, m2⟩
              · rcases o3 pdx hx with ⟨m1, m2, m3⟩
                rw [hw1] at m2
                exact ⟨List.mem_cons_of_mem _ m1, m2, m3⟩
          | none =>
            simp only [scanParents, hc, hcache, hrt, hl] at h
            rcases ih (cs ++ [(ph, ⟨pt, []⟩)]) pend cs2 pend2 r hnd1 h with
              ⟨o1, o2, o3⟩
            refine ⟨o1, fun hx => ?_, fun pdx hx => ?_⟩
            · rcases o2 hx with ⟨m1, m2⟩
              rw [hw1] at m1
              exact ⟨m1, m2⟩
            · rcases o3 pdx hx with ⟨m1, m2, m3⟩
              rw [hw1] at m2
              exact ⟨List.mem_cons_of_mem _ m1, m2, m3⟩

/-- Key accounting for one parent scan: cache keys only grow, grow only by
scanned parents, and new pending commits are cached. -/
theorem scanParents_keys (store : Store) (tfuel : Nat) (fp path : String)
    (pd : PathDict) (ps : List Nat) :
    ∀ cs pend cs2 pend2 r,
      scanParents store tfuel fp path pd ps cs pend = some (cs2, pend2, r) →
      ((∀ h, h ∈ akeys cs → h ∈ akeys cs2) ∧
       (∀ h, h ∈ akeys cs2 → h ∈ akeys cs ∨ h ∈ ps) ∧
       (∀ h, h ∈ pend2 → h ∈ pend ∨ h ∈ akeys cs2)) := by
  induction ps with
  | nil =>
    intro cs pend cs2 pend2 r h
    rw [scanParents] at h
    injection h with h
    injection h with h1 h
    injection h with h2 h3
    subst h1; subst h2
    exact ⟨fun h hx => hx, fun h hx => Or.inl hx, fun h hx => Or.inl hx⟩
  | cons ph rest ih =>
    intro cs pend cs2 pend2 r h
    cases hc : store.commits ph with
    | none =>
      simp only [scanParents, hc] at h
      exact Option.noConfusion h
    | some pc =>
      cases hcache : alookup ph cs with
      | some st =>
        cases hl : alookup path st.tree with
        | some poid =>
          by_cases he : poid = pd.oid
          · subst he
            simp only [scanParents, hc, hcache, hl] at h
            rw [if_true] at h
            injection h with h
            injection h with h1 h
            injection h with h2 h3
            subst h1; subst h2
            refine ⟨fun h hx => by rw [akeys_heldSet]; exact hx,
              fun h hx => Or.inl (by rw [akeys_heldSet] at hx; exact hx),
              fun h hx => ?_⟩
            rcases mem_setAdd hx with h4 | h4
            · exact Or.inl h4
            · subst h4
              rw [akeys_heldSet]
              exact Or.inr (mem_akeys_of_alookup hcache)
          · simp only [scanParents, hc, hcache, hl] at h
            rw [if_neg he] at h
            rcases ih cs pend cs2 pend2 r h with ⟨k1, k2, k3⟩
            refine ⟨k1, fun h2 hx => ?_, k3⟩
            rcases k2 h2 hx with h4 | h4
            · exact Or.inl h4
            · exact Or.inr (List.mem_cons_of_mem _ h4)
        | none =>
          simp only [scanParents, hc, hcache, hl] at h
          rcases ih cs pend cs2 pend2 r h with ⟨k1, k2, k3⟩
          refine ⟨k1, fun h2 hx => ?_, k3⟩
          rcases k2 h2 hx with h4 | h4
          · exact Or.inl h4
          · exact Or.inr (List.mem_cons_of_mem _ h4)
      | none =>
        cases hrt : readTree store tfuel pc fp with
        | none =>
          simp only [scanParents, hc, hcache, hrt] at h
          exact Option.noConfusion h
        | some pt =>
          have hkeys1 : akeys (cs ++ [(ph, (⟨pt, []⟩ : CommitState))]) =
              akeys cs ++ [ph] := akeys_append cs _
          cases hl : alookup path pt with
          | some poid =>
            by_cases he : poid = pd.oid
            · subst he
              simp only [scanParents, hc, hcache, hrt, hl] at h
              rw [if_true] at h
              injection h with h
              injection h with h1 h
              injection h with h2 h3
              subst h1; subst h2
              refine ⟨fun h2 hx => ?_, fun h2 hx => ?_, fun h2 hx => ?_⟩
              · rw [akeys_heldSet, hkeys1]
                exact List.mem_append_left _ hx
              · rw [akeys_heldSet, hkeys1] at hx
                rcases List.mem_append.mp hx with h4 | h4
                · exact Or.inl h4
                · simp at h4
                  subst h4
                  exact Or.inr (List.mem_cons_self _ _)
              · rcases mem_setAdd hx with h4 | h4
                · exact Or.inl h4
                · subst h4
                  rw [akeys_heldSet, hkeys1]
                  exact Or.inr (List.mem_append_right _ (by simp))
            · simp only [scanParents, hc, hcache, hrt, hl] at h
              rw [if_neg he] at h
              rcases ih (cs ++ [(ph, ⟨pt, []⟩)]) pend cs2 pend2 r h with ⟨k1, k2, k3⟩
              refine ⟨fun h2 hx => ?_, fun h2 hx => ?_, k3⟩
              · exact k1 h2 (by rw [hkeys1]; exact List.mem_append_left _ hx)
              · rcases k2 h2 hx with h4 | h4
                · rw [hkeys1] at h4
                  rcases List.mem_append.mp h4 with h5 | h5
                  · exact Or.inl h5
                  · simp at h5
                    subst h5
                    exact Or.inr (List.mem_cons_self _ _)
                · exact Or.inr (List.mem_cons_of_mem _ h4)
          | none =>
            simp only [scanParents, hc, hcache, hrt, hl] at h
            rcases ih (cs ++ [(ph, ⟨pt, []⟩)]) pend cs2 pend2 r h with ⟨k1, k2, k3⟩
            refine ⟨fun h2 hx => ?_, fun h2 hx => ?_, k3⟩
            · exact k1 h2 (by rw [hkeys1]; exact List.mem_append_left _ hx)
            · rcases k2 h2 hx with h4 | h4
              · rw [hkeys1] at h4
                rcases List.mem_append.mp h4 with h5 | h5
                · exact Or.inl h5
                · simp at h5
                  subst h5
                  exact Or.inr (List.mem_cons_self _ _)
              · exact Or.inr (List.mem_cons_of_mem _ h4)

/-- The walk step never fails when every scanned parent flattens. -/
theorem walkStep_isSome (store : Store) (tfuel : Nat) (fp path : String) (oid : Nat) :
    ∀ ps : List Nat, (∀ p ∈ ps, ∃ pt, flatTreeOf store tfuel fp p = some pt) →
      ∃ o, walkStep store tfuel fp path oid ps = some o := by
  intro ps
  induction ps with
  | nil => intro _; exact ⟨none, rfl⟩
  | cons q rest ih =>
    intro hall
    rcases hall q (List.mem_cons_self _ _) with ⟨pt, hpt⟩
    rcases ih (fun p hp => hall p (List.mem_cons_of_mem _ hp)) with ⟨o, ho⟩
    cases hl : alookup path pt with
    | none =>
      refine ⟨o, ?_⟩
      simp only [walkStep, hpt, hl]
      exact ho
    | some poid =>
      by_cases he : poid = oid
      · subst he
        refine ⟨some q, ?_⟩
        simp [walkStep, hpt, hl]
      · refine ⟨o, ?_⟩
        simp only [walkStep, hpt, hl]
        rw [if_neg he]
        exact ho

/-- The inner working-loop pass never fails when every parent of the
popped commit flattens. -/
theorem processHeld_some (store : Store) (tfuel : Nat) (fp : String) (c : GitCommit)
    (hflat : ∀ p ∈ c.parents, ∃ pt, flatTreeOf store tfuel fp p = some pt) :
    ∀ w cs pend res, CacheOk store tfuel fp cs →
      ∃ out, processHeld store tfuel fp c w cs pend res = some out := by
  intro w
  induction w with
  | nil =>
    intro cs pend res hOk
    exact ⟨(cs, pend, res), by rw [processHeld]⟩
  | cons hd rest ih =>
    obtain ⟨path, pd⟩ := hd
    intro cs pend res hOk
    obtain ⟨o, hws⟩ := walkStep_isSome store tfuel fp path pd.oid c.parents hflat
    have hsp := scanParents_spec store tfuel fp path pd c.parents cs pend hOk
    cases hout : scanParents store tfuel fp path pd c.parents cs pend with
    | none =>
      have := hsp.1.mp hout
      rw [hws] at this
      cases this
    | some out3 =>
      obtain ⟨cs1, pend1, r⟩ := out3
      rcases hsp.2 cs1 pend1 r hout with ⟨csg, hg, hcase⟩
      have hOk1 : CacheOk store tfuel fp cs1 := by
        rcases hcase with ⟨_, _, hcs1, _⟩ | ⟨ph, _, _, hcs1, _, _⟩
        · rw [hcs1]
          exact cacheOk_grown hOk hg
        · rw [hcs1]
          exact cacheOk_heldSet (cacheOk_grown hOk hg) _ _ _
      rw [processHeld, hout]
      cases r with
      | some pdx =>
        simp only
        exact ih cs1 pend1 res hOk1
      | none =>
        simp only
        exact ih cs1 pend1 (res ++ [(path, pd)]) hOk1

/-- Weight accounting for one working-loop pass: the measure after the
pass is bounded by the measure before plus one budget unit per processed
path. -/
theorem processHeld_measure (store : Store) (tfuel : Nat) (fp : String)
    (c : GitCommit) (chex : Nat) (rank : Nat → Nat)
    (hpar : ∀ p ∈ c.parents, rank p < rank chex) :
    ∀ w cs pend res cs2 pend2 res2,
      (akeys cs).Nodup →
      (∀ path pdx, (path, pdx) ∈ w → pdx.latest = chex) →
      processHeld store tfuel fp c w cs pend res = some (cs2, pend2, res2) →
      ((akeys cs2).Nodup ∧
        heldWeight rank cs2 + pend2.length ≤
          heldWeight rank cs + pend.length + w.length * (1 + rank chex)) := by
  intro w
  induction w with
  | nil =>
    intro cs pend res cs2 pend2 res2 hnd hw h
    rw [processHeld] at h
    injection h with h
    injection h with h1 h
    injection h with h2 h3
    subst h1; subst h2
    refine ⟨hnd, ?_⟩
    simp
  | cons hd rest ih =>
    obtain ⟨path, pd⟩ := hd
    intro cs pend res cs2 pend2 res2 hnd hw h
    rw [processHeld] at h
    cases hout : scanParents store tfuel fp path pd c.parents cs pend with
    | none =>
      rw [hout] at h
      exact Option.noConfusion h
    | some out3 =>
      obtain ⟨cs1, pend1, r⟩ := out3
      rw [hout] at h
      rcases scanParents_measure store tfuel fp path pd rank c.parents cs pend
        cs1 pend1 r hnd hout with ⟨hnd1, hnone, hsome⟩
      have hbudget : (rest.length + 1) * (1 + rank chex) =
          rest.length * (1 + rank chex) + (1 + rank chex) := by
        rw [Nat.succ_mul]
      cases r with
      | some pdx =>
        simp only at h
        rcases hsome pdx rfl with ⟨m1, m2, m3⟩
        have hrank1 : rank pdx.latest < rank chex := hpar pdx.latest m1
        have hpdw : pdw rank pdx ≤ rank chex := by
          rw [pdw]
          omega
        rcases ih cs1 pend1 res cs2 pend2 res2 hnd1
          (fun p2 d2 hm => hw p2 d2 (List.mem_cons_of_mem _ hm)) h with ⟨o1, o2⟩
        refine ⟨o1, ?_⟩
        rw [List.length_cons, hbudget]
        omega
      | none =>
        simp only at h
        rcases hnone rfl with ⟨m1, m2⟩
        rcases ih cs1 pend1 (res ++ [(path, pd)]) cs2 pend2 res2 hnd1
          (fun p2 d2 hm => hw p2 d2 (List.mem_cons_of_mem _ hm)) h with ⟨o1, o2⟩
        have m2l : pend1.length = pend.length := by rw [m2]
        refine ⟨o1, ?_⟩
        rw [List.length_cons, hbudget]
        omega

/-- Key accounting for one working-loop pass. -/
theorem processHeld_keys (store : Store) (tfuel : Nat) (fp : String) (c : GitCommit) :
    ∀ w cs pend res cs2 pend2 res2,
      processHeld store tfuel fp c w cs pend res = some (cs2, pend2, res2) →
      ((∀ h, h ∈ akeys cs → h ∈ akeys cs2) ∧
       (∀ h, h ∈ akeys cs2 → h ∈ akeys cs ∨ h ∈ c.parents) ∧
       (∀ h, h ∈ pend2 → h ∈ pend ∨ h ∈ akeys cs2)) := by
  intro w
  induction w with
  | nil =>
    intro cs pend res cs2 pend2 res2 h
    rw [processHeld] at h
    injection h with h
    injection h with h1 h
    injection h with h2 h3
    subst h1; subst h2
    exact ⟨fun h hx => hx, fun h hx => Or.inl hx, fun h hx => Or.inl hx⟩
  | cons hd rest ih =>
    obtain ⟨path, pd⟩ := hd
    intro cs pend res cs2 pend2 res2 h
    rw [processHeld] at h
    cases hout : scanParents store tfuel fp path pd c.parents cs pend with
    | none =>
      rw [hout] at h
      exact Option.noConfusion h
    | some out3 =>
      obtain ⟨cs1, pend1, r⟩ := out3
      rw [hout] at h
      rcases scanParents_keys store tfuel fp path pd c.parents cs pend
        cs1 pend1 r hout with ⟨k1, k2, k3⟩
      have hcompose : ∀ cs2x pend2x res2x,
          processHeld store tfuel fp c rest cs1 pend1 res2x = some (cs2x, pend2x, res2x) →
          True := fun _ _ _ _ => trivial
      cases r with
      | some pdx =>
        simp only at h
        rcases ih cs1 pend1 res cs2 pend2 res2 h with ⟨j1, j2, j3⟩
        refine ⟨fun h2 hx => j1 h2 (k1 h2 hx), fun h2 hx => ?_, fun h2 hx => ?_⟩
        · rcases j2 h2 hx with h4 | h4
          · exact k2 h2 h4
          · exact Or.inr h4
        · rcases j3 h2 hx with h4 | h4
          · rcases k3 h2 h4 with h5 | h5
            · exact Or.inl h5
            · exact Or.inr (j1 h2 h5)
          · exact Or.inr h4
      | none =>
        simp only at h
        rcases ih cs1 pend1 (res ++ [(path, pd)]) cs2 pend2 res2 h with ⟨j1, j2, j3⟩
        refine ⟨fun h2 hx => j1 h2 (k1 h2 hx), fun h2 hx => ?_, fun h2 hx => ?_⟩
        · rcases j2 h2 hx with h4 | h4
          · exact k2 h2 h4
          · exact Or.inr h4
        · rcases j3 h2 hx with h4 | h4
          · rcases k3 h2 h4 with h5 | h5
            · exact Or.inl h5
            · exact Or.inr (j1 h2 h5)
          · exact Or.inr h4

/-- Totality of the frontier loop: with a valid scheduler, a domain of
commits closed under parents whose commits and trees all read back, and a
rank strictly decreasing into parents (a finite DAG), the loop succeeds
whenever the fuel covers the state measure (held weight plus pending
count). -/
theorem runLoop_total (store : Store) (tfuel : Nat) (fp : String)
    (sched : List Nat → Nat) (root : Nat) (tree0 : List (String × Nat))
    (dom : List Nat) (rank : Nat → Nat)
    (hnd0 : (akeys tree0).Nodup)
    (hsched : ∀ l : List Nat, l ≠ [] → sched l ∈ l)
    (hdom : ∀ h2, h2 ∈ dom → ∃ gc, store.commits h2 = some gc ∧
      (∀ q, q ∈ gc.parents → q ∈ dom) ∧
      ∃ t, readTree store tfuel gc fp = some t)
    (hrank : ∀ h2 gc, h2 ∈ dom → store.commits h2 = some gc →
      ∀ q, q ∈ gc.parents → rank q < rank h2) :
    ∀ fuel cs res0 pend,
      Inv store tfuel fp root tree0 ⟨cs, res0, pend⟩ →
      (∀ h2, h2 ∈ akeys cs → h2 ∈ dom) →
      (∀ h2, h2 ∈ pend → h2 ∈ akeys cs) →
      heldWeight rank cs + pend.length ≤ fuel →
      ∃ res, runLoop store tfuel fp sched fuel ⟨cs, res0, pend⟩ = some res := by
  intro fuel
  induction fuel with
  | zero =>
    intro cs res0 pend hinv hkeys hpendc hfuel
    cases pend with
    | nil => exact ⟨res0, runLoop_nil store tfuel fp sched 0 cs res0⟩
    | cons a l =>
      rw [List.length_cons] at hfuel
      exact absurd hfuel (by omega)
  | succ fuel ih =>
    intro cs res0 pend hinv hkeys hpendc hfuel
    cases pend with
    | nil => exact ⟨res0, runLoop_nil store tfuel fp sched (fuel + 1) cs res0⟩
    | cons p ps =>
      have hchex : sched (p :: ps) ∈ p :: ps := hsched _ (by simp)
      have hmemcs : sched (p :: ps) ∈ akeys cs := hpendc _ hchex
      have hdomchex : sched (p :: ps) ∈ dom := hkeys _ hmemcs
      obtain ⟨c, hc, hpardom, t0, hrt0⟩ := hdom _ hdomchex
      have hflat : ∀ q, q ∈ c.parents →
          ∃ pt, flatTreeOf store tfuel fp q = some pt := by
        intro q hq
        obtain ⟨gc, hgc, hgp, t2, hrt2⟩ := hdom q (hpardom q hq)
        refine ⟨t2, ?_⟩
        simp only [flatTreeOf, hgc]
        exact hrt2
      cases hcstE : alookup (sched (p :: ps)) cs with
      | none =>
        have hcontra := (alookup_isSome (sched (p :: ps)) cs).mpr hmemcs
        rw [hcstE] at hcontra
        simp at hcontra
      | some cst =>
        have hOk0 : CacheOk store tfuel fp (clearHeld cs (sched (p :: ps))) :=
          cacheOk_clearHeld hinv.cacheOk _
        have hnd0c : (akeys (clearHeld cs (sched (p :: ps)))).Nodup := by
          rw [akeys_clearHeld]
          exact hinv.csNodup
        have hH0 : HeldOk store tfuel fp root tree0
            (clearHeld cs (sched (p :: ps))) :=
          heldOk_clearHeld hinv.heldOk _
        have hw0 : ∀ path pd, (path, pd) ∈ cst.held →
            pd.latest = sched (p :: ps) ∧
            alookup path tree0 = some pd.oid ∧
            RSteps store tfuel fp path pd.oid root (sched (p :: ps)) :=
          fun path pd hm => hinv.heldOk _ cst path pd hcstE hm
        have hperm0 : List.Perm (akeys res0 ++
            (heldPaths (clearHeld cs (sched (p :: ps))) ++ akeys cst.held))
            (akeys tree0) := by
          refine List.Perm.trans (List.Perm.append_left _ ?_)
            (List.Perm.trans (List.Perm.append_left _
              (heldPaths_clearHeld_perm cs _ hinv.csNodup cst hcstE).symm) ?_)
          · exact List.perm_append_comm
          · exact hinv.perm
        have hP0 : PendHeld (clearHeld cs (sched (p :: ps)))
            ((p :: ps).erase (sched (p :: ps))) := by
          intro h cst2 hl hne
          by_cases h2 : h = sched (p :: ps)
          · rw [h2, alookup_clearHeld_self] at hl
            cases hcs2 : alookup (sched (p :: ps)) cs with
            | none => rw [hcs2] at hl; cases hl
            | some stx =>
              rw [hcs2] at hl
              injection hl with hl
              rw [← hl] at hne
              exact absurd rfl hne
          · rw [alookup_clearHeld_ne _ _ _ h2] at hl
            have hmem : h ∈ p :: ps := hinv.pendHeld h cst2 hl hne
            exact (List.mem_erase_of_ne h2).mpr hmem
        obtain ⟨out, hph⟩ := processHeld_some store tfuel fp c hflat cst.held
          (clearHeld cs (sched (p :: ps))) ((p :: ps).erase (sched (p :: ps)))
          res0 hOk0
        obtain ⟨cs2, pend2, res2⟩ := out
        rcases processHeld_spec store tfuel fp root tree0 (sched (p :: ps)) c hc
            hnd0 cst.held _ _ res0 cs2 pend2 res2 hph hOk0 hnd0c hH0
            hinv.resOk hw0 hperm0 hP0 with ⟨o1, o2, o3, o4, o5, o6, o7⟩
        rcases processHeld_keys store tfuel fp c cst.held
          (clearHeld cs (sched (p :: ps))) ((p :: ps).erase (sched (p :: ps)))
          res0 cs2 pend2 res2 hph with ⟨k1, k2, k3⟩
        have hkeys2 : ∀ h2, h2 ∈ akeys cs2 → h2 ∈ dom := by
          intro h2 hh2
          rcases k2 h2 hh2 with h3 | h3
          · rw [akeys_clearHeld] at h3
            exact hkeys h2 h3
          · exact hpardom h2 h3
        have hpendc2 : ∀ h2, h2 ∈ pend2 → h2 ∈ akeys cs2 := by
          intro h2 hh2
          rcases k3 h2 hh2 with h3 | h3
          · have h4 : h2 ∈ p :: ps := List.mem_of_mem_erase h3
            refine k1 h2 ?_
            rw [akeys_clearHeld]
            exact hpendc h2 h4
          · exact h3
        have hlat : ∀ path pdx, (path, pdx) ∈ cst.held →
            pdx.latest = sched (p :: ps) :=
          fun path pdx hm => (hinv.heldOk _ cst path pdx hcstE hm).1
        rcases processHeld_measure store tfuel fp c (sched (p :: ps)) rank
          (fun q hq => hrank _ c hdomchex hc q hq) cst.held
          (clearHeld cs (sched (p :: ps))) ((p :: ps).erase (sched (p :: ps)))
          res0 cs2 pend2 res2 hnd0c hlat hph with ⟨q1, q2⟩
        have hW := heldWeight_clearHeld rank (sched (p :: ps)) cs
          hinv.csNodup cst hcstE
        have hsum := sum_map_const_latest rank (sched (p :: ps)) cst.held hlat
        have herase : ((p :: ps).erase (sched (p :: ps))).length =
            (p :: ps).length - 1 := List.length_erase_of_mem hchex
        have hlpos : 0 < (p :: ps).length := by simp
        have hmeas2 : heldWeight rank cs2 + pend2.length ≤ fuel := by
          rw [hsum] at hW
          omega
        rcases ih cs2 res2 pend2 ⟨o1, o2, o3, o4, o5, o6⟩ hkeys2 hpendc2 hmeas2
          with ⟨res, hres⟩
        refine ⟨res, ?_⟩
        rw [runLoop_step, hc]
        simp only
        rw [hcstE]
        simp only
        rw [hph]
        simp only
        exact hres

/-- C6: termination.  On a finite acyclic commit graph — a finite domain
of commit ids closed under parenthood, each with a readable commit object
and a flattenable tree, and a rank function that strictly decreases from
child to parent (each advance strictly increases topological depth from
the start commit) — the resolver terminates: for any pop strategy some
finite loop fuel makes `get_latest_changing_commits_for_tree` return
normally. -/
theorem resolver_terminates (store : Store) (tfuel : Nat) (fp : String)
    (sched : List Nat → Nat) (rootHex : Nat) (dom : List Nat) (rank : Nat → Nat)
    (hsched : ∀ l : List Nat, l ≠ [] → sched l ∈ l)
    (hroot : rootHex ∈ dom)
    (hdom : ∀ h2, h2 ∈ dom → ∃ gc, store.commits h2 = some gc ∧
      (∀ q, q ∈ gc.parents → q ∈ dom) ∧
      ∃ t, readTree store tfuel gc fp = some t)
    (hrank : ∀ h2 gc, h2 ∈ dom → store.commits h2 = some gc →
      ∀ q, q ∈ gc.parents → rank q < rank h2) :
    ∃ lfuel res,
      get_latest_changing_commits_for_tree store tfuel lfuel sched rootHex fp =
        some res := by
  obtain ⟨rc, hrc, hpardom, tree0, hrt⟩ := hdom rootHex hroot
  have hnd0 : (akeys tree0).Nodup := readTree_nodup hrt
  have hinv := initial_inv hrc hrt
  have ekeys : akeys [(rootHex,
      (⟨tree0, tree0.map (fun p => (p.1, PathDict.mk p.2 rootHex))⟩ :
        CommitState))] = [rootHex] := rfl
  have hkeys : ∀ h2, h2 ∈ akeys [(rootHex,
      (⟨tree0, tree0.map (fun p => (p.1, PathDict.mk p.2 rootHex))⟩ :
        CommitState))] → h2 ∈ dom := by
    intro h2 hh2
    rw [ekeys] at hh2
    rw [List.mem_singleton.mp hh2]
    exact hroot
  have hpendc : ∀ h2, (h2 ∈ [rootHex]) → h2 ∈ akeys [(rootHex,
      (⟨tree0, tree0.map (fun p => (p.1, PathDict.mk p.2 rootHex))⟩ :
        CommitState))] := by
    intro h2 hh2
    rw [ekeys]
    exact hh2
  rcases runLoop_total store tfuel fp sched rootHex tree0 dom rank hnd0 hsched
    hdom hrank
    (heldWeight rank [(rootHex,
      (⟨tree0, tree0.map (fun p => (p.1, PathDict.mk p.2 rootHex))⟩ :
        CommitState))] + 1)
    [(rootHex,
      (⟨tree0, tree0.map (fun p => (p.1, PathDict.mk p.2 rootHex))⟩ :
        CommitState))]
    [] [rootHex] hinv hkeys hpendc (by simp) with ⟨res, hres⟩
  refine ⟨heldWeight rank [(rootHex,
      (⟨tree0, tree0.map (fun p => (p.1, PathDict.mk p.2 rootHex))⟩ :
        CommitState))] + 1, res, ?_⟩
  simp only [get_latest_changing_commits_for_tree, hrc, hrt]
  exact hres

/-- Witness for C6 at the linear three-commit store: ranking commits by
their id exhibits the DAG order, and the resolver run from commit 102
terminates for the head-of-pending pop strategy. -/
theorem resolver_terminates_witness :
    ∃ lfuel res,
      get_latest_changing_commits_for_tree storeLin 5 lfuel headSched 102 "" =
        some res :=
  resolver_terminates storeLin 5 "" headSched 102 [102, 101, 100] (fun n => n)
    headSched_mem (by decide)
    (by
      intro h2 hh2
      simp at hh2
      rcases hh2 with rfl | rfl | rfl
      · exact ⟨⟨12, [101]⟩, rfl, by decide, _, rfl⟩
      · exact ⟨⟨11, [100]⟩, rfl, by decide, _, rfl⟩
      · exact ⟨⟨10, []⟩, rfl, by decide, _, rfl⟩)
    (by
      intro h2 gc hh2 hgc q hq
      simp at hh2
      rcases hh2 with rfl | rfl | rfl
      · rw [show storeLin.commits 102 = some ⟨12, [101]⟩ from rfl] at hgc
        injection hgc with e
        subst e
        have hq2 : q ∈ [101] := hq
        rw [List.mem_singleton.mp hq2]
        decide
      · rw [show storeLin.commits 101 = some ⟨11, [100]⟩ from rfl] at hgc
        injection hgc with e
        subst e
        have hq2 : q ∈ [100] := hq
        rw [List.mem_singleton.mp hq2]
        decide
      · rw [show storeLin.commits 100 = some ⟨10, []⟩ from rfl] at hgc
        injection hgc with e
        subst e
        have hq2 : q ∈ ([] : List Nat) := hq
        cases hq2)

end Kroftig
